import Mathlib

/-!
Verification of the B+ tree implementation in `src/rusty-le/src/bplus_tree.rs`.

The first half of this file is a shallow embedding of the Rust source:
every function of the source is translated to a Lean definition of the
same name (snake_case preserved).  Rust panics (out-of-bounds `Vec`
indexing) are modelled by `Option`: a `none` result means the original
code would panic.  Machine integers (`i32` keys) are modelled as `Int`;
no arithmetic is performed on keys, only comparisons, so overflow cannot
occur and no modular reduction is needed.  `usize` lengths/indices are
`Nat`.

The second half states and proves properties of the embedding: an
inductive invariant `TreeInv` for all trees reachable from `new()` by
`insert` calls, preservation lemmas, and the claim theorems.
-/

/-- Constant `MIN_DEGREE` of the source (line 3). -/
def MIN_DEGREE : Nat := 3

/-- Source struct `Entry` (lines 7..10). -/
structure Entry where
  key : Int
  value : String

/-- Source enum `Node` (lines 14..22): a leaf holds entries, an internal
node holds separator keys and children. -/
inductive Node where
  | leaf (entries : List Entry)
  | internal (keys : List Int) (children : List Node)

namespace Node

/-- Source `Node::new_leaf` (lines 25..29). -/
def new_leaf : Node := .leaf []

/-- Source `Node::new_internal` (lines 31..36). -/
def new_internal : Node := .internal [] []

/-- Source `Node::is_leaf` (lines 38..40). -/
def is_leaf : Node → Bool
  | .leaf _ => true
  | .internal _ _ => false

/-- Source `Node::num_keys` (lines 42..47). -/
def num_keys : Node → Nat
  | .leaf entries => entries.length
  | .internal keys _ => keys.length

/-- Source `Node::is_full` (lines 49..51). -/
def is_full (n : Node) : Bool := n.num_keys ≥ 2 * MIN_DEGREE - 1

end Node

/-- Source struct `BPlusTree` (lines 55..58). -/
structure BPlusTree where
  root : Node
  height : Nat

/-- Model of Rust `Iterator::position`: index of the first element
satisfying the predicate. -/
def position (p : Entry → Bool) : List Entry → Option Nat
  | [] => none
  | e :: es => if p e then some 0 else (position p es).map (· + 1)

/-- Model of `entries[pos].value = value` (source lines 93, 140): replace
the value of the entry at `pos`, keeping its key. -/
def setValueAt : List Entry → Nat → String → List Entry
  | [], _, _ => []
  | e :: es, 0, v => ⟨e.key, v⟩ :: es
  | e :: es, n+1, v => e :: setValueAt es n v

/-- Model of `Vec::insert(pos, x)`.  All call sites reached by the program
have `pos ≤ length` (the case in which `Vec::insert` does not panic);
the `pos > length` fallback of this model is never exercised. -/
def vecInsert {α : Type} (x : α) : Nat → List α → List α
  | 0, l => x :: l
  | _+1, [] => [x]
  | n+1, a :: l => a :: vecInsert x n l

/-- The leaf upsert of the source (lines 92..97, and the textually
identical lines 139..144): overwrite the value of an entry with an equal
key, else insert the new entry before the first strictly greater key
(at the end if none is greater). -/
def leafUpsert (entries : List Entry) (key : Int) (value : String) : List Entry :=
  match position (fun e => e.key == key) entries with
  | some pos => setValueAt entries pos value
  | none =>
      let pos := (position (fun e => key < e.key) entries).getD entries.length
      vecInsert ⟨key, value⟩ pos entries

/-- The child-index routing loop of the source (lines 100..111 insert,
lines 226..233 search): the first index whose separator strictly exceeds
the key, else the number of separators. -/
def routeIdx (key : Int) : List Int → Nat
  | [] => 0
  | k :: ks => if key < k then 0 else routeIdx key ks + 1

/-- Source `split_child` (lines 150..179), acting on the root node.
Only a Leaf child with more than `MIN_DEGREE - 1` entries is split: the
entry at index `MIN_DEGREE - 1` has its key promoted, entries strictly
before it form the left sibling and entries from it on form the right
sibling.  A `none` result models a `Vec` indexing panic. -/
def split_child (root : Node) (child_idx : Nat) : Option Node :=
  match root with
  | .internal keys children =>
    match children.get? child_idx with
    | none => none
    | some child =>
      match child with
      | .leaf entries =>
        if entries.length > MIN_DEGREE - 1 then
          match entries.get? (MIN_DEGREE - 1) with
          | none => none
          | some median =>
            if child_idx ≤ keys.length then
              some (.internal
                (vecInsert median.key child_idx keys)
                (vecInsert (Node.leaf (entries.drop (MIN_DEGREE - 1))) (child_idx + 1)
                  (children.set child_idx (.leaf (entries.take (MIN_DEGREE - 1))))))
            else none
        else some (.internal keys children)
      | .internal _ _ => some (.internal keys children)
  | .leaf entries => some (.leaf entries)

/-- Source `split_child_internal` (lines 181..210); its body is textually
identical to `split_child`. -/
def split_child_internal (root : Node) (child_idx : Nat) : Option Node :=
  split_child root child_idx

/-- Source `insert_into_child` (lines 135..148): upsert into the child at
`child_idx` when that child is a leaf; otherwise nothing happens. -/
def insert_into_child (root : Node) (child_idx : Nat) (key : Int) (value : String) :
    Option Node :=
  match root with
  | .internal keys children =>
    match children.get? child_idx with
    | none => none
    | some child =>
      match child with
      | .leaf entries =>
          some (.internal keys (children.set child_idx (.leaf (leafUpsert entries key value))))
      | .internal _ _ => some (.internal keys children)
  | .leaf entries => some (.leaf entries)

/-- Source `insert_non_full` (lines 89..133).  On a leaf root, upsert in
place.  On an internal root, route to a child; if the child is full,
split it (`split_child_internal`), read the separator now at the routed
index (`keys[child_idx]`, line 122 — this read panics, i.e. yields
`none`, when the index is out of bounds), advance the index when the key
exceeds that separator, and finally `insert_into_child`.  The
`-2147483648` constant is the source's `i32::MIN` fallback of line 124,
reachable only if the root were not internal. -/
def insert_non_full (root : Node) (key : Int) (value : String) : Option Node :=
  match root with
  | .leaf entries => some (.leaf (leafUpsert entries key value))
  | .internal keys children =>
    let child_idx := routeIdx key keys
    match children.get? child_idx with
    | none => none
    | some c =>
      if c.is_full then
        match split_child_internal (.internal keys children) child_idx with
        | none => none
        | some root2 =>
          match (match root2 with
                 | .internal keys2 _ => keys2.get? child_idx
                 | .leaf _ => some (-2147483648 : Int)) with
          | none => none
          | some key_val =>
            insert_into_child root2 (if key > key_val then child_idx + 1 else child_idx)
              key value
      else insert_into_child (.internal keys children) child_idx key value

/-- The root-overflow phase of source `insert` (lines 71..84): when the
root is full, a fresh internal root adopts the old root as its sole
child, `split_child 0` is attempted, and the height grows by one. -/
def growRoot (t : BPlusTree) : Option BPlusTree :=
  if t.root.is_full then
    match split_child (.internal [] [t.root]) 0 with
    | none => none
    | some r => some ⟨r, t.height + 1⟩
  else some t

/-- Source `BPlusTree::insert` (lines 70..87): root-overflow phase, then
`insert_non_full`. -/
def BPlusTree.insert (t : BPlusTree) (key : Int) (value : String) : Option BPlusTree :=
  match growRoot t with
  | none => none
  | some t1 => (insert_non_full t1.root key value).map (fun r => ⟨r, t1.height⟩)

/-- Source `BPlusTree::new` (lines 62..67). -/
def BPlusTree.new : BPlusTree := ⟨Node.new_leaf, 1⟩

mutual
/-- Source `search_recursive` (lines 217..237): scan a leaf for an exact
key match; at an internal node, descend into the routed child.  The
result is `some r` for a normal return `r : Option String`; `none`
models the panic of `children[child_idx]` when the index is out of
bounds. -/
def search_recursive (key : Int) : Node → Option (Option String)
  | .leaf entries => some ((entries.find? fun e => e.key == key).map Entry.value)
  | .internal keys children => searchChildAt key (routeIdx key keys) children
/-- Indexing step `children[child_idx]` of source line 234 followed by the
recursive call: walk to the i-th child and recurse there. -/
def searchChildAt (key : Int) : Nat → List Node → Option (Option String)
  | _, [] => none
  | 0, c :: _ => search_recursive key c
  | n+1, _ :: cs => searchChildAt key n cs
end

/-- Source `BPlusTree::search` (lines 213..215). -/
def BPlusTree.search (t : BPlusTree) (key : Int) : Option (Option String) :=
  search_recursive key t.root

mutual
/-- Source `range_query_recursive` (lines 246..274).  A leaf contributes
its entries with `start ≤ key ≤ stop` in order.  An internal node visits
child `i` when `start ≤ keys[i]` (loop of lines 262..266), then visits
the last child when `stop` strictly exceeds the last separator
(`keys.last` with `i32::MIN` fallback, lines 267..271). -/
def range_query_recursive (start stop : Int) : Node → Option (List (Int × String))
  | .leaf entries =>
      some ((entries.filter fun e => start ≤ e.key && e.key ≤ stop).map fun e => (e.key, e.value))
  | .internal keys [] =>
      match rangeOverKeys start stop keys [] with
      | none => none
      | some acc => some acc
  | .internal keys (c0 :: rest) =>
      match rangeOverKeys start stop keys (c0 :: rest) with
      | none => none
      | some acc =>
        if stop > (keys.getLast?.getD (-2147483648 : Int)) then
          match rangeLastChild start stop c0 rest with
          | none => none
          | some more => some (acc ++ more)
        else some acc
termination_by n => sizeOf n
/-- The `for (i, key) in keys.iter().enumerate()` loop of source lines
262..266: keys and children walked in lockstep; `children[i]` is indexed
(and can panic, modelled `none`) only when `start ≤ keys[i]`. -/
def rangeOverKeys (start stop : Int) : List Int → List Node → Option (List (Int × String))
  | [], _ => some []
  | _ :: _, [] => none
  | k :: ks, c :: cs =>
      if start ≤ k then
        match range_query_recursive start stop c with
        | none => none
        | some r =>
          match rangeOverKeys start stop ks cs with
          | none => none
          | some rest => some (r ++ rest)
      else rangeOverKeys start stop ks cs
termination_by _ks cs => sizeOf cs
/-- Walk to `children.last()` (source line 267) and run the range query
there. -/
def rangeLastChild (start stop : Int) (c : Node) : List Node → Option (List (Int × String))
  | [] => range_query_recursive start stop c
  | c2 :: cs => rangeLastChild start stop c2 cs
termination_by cs => sizeOf c + sizeOf cs
end

/-- Source `BPlusTree::range_query` (lines 240..244). -/
def BPlusTree.range_query (t : BPlusTree) (start stop : Int) : Option (List (Int × String)) :=
  range_query_recursive start stop t.root

mutual
/-- Source `collect_keys` (lines 283..296): leaf entry keys in order, and
children of an internal node visited left to right. -/
def collect_keys : Node → List Int
  | .leaf entries => entries.map Entry.key
  | .internal _ children => collectKeysList children
/-- The `for child in children` loop of source lines 291..293. -/
def collectKeysList : List Node → List Int
  | [] => []
  | c :: cs => collect_keys c ++ collectKeysList cs
end

/-- Source `BPlusTree::all_keys` (lines 277..281). -/
def BPlusTree.all_keys (t : BPlusTree) : List Int := collect_keys t.root

/-- Run a sequence of inserts starting from a given tree; `none` as soon
as one insert panics. -/
def insertAllFrom (t : BPlusTree) : List (Int × String) → Option BPlusTree
  | [] => some t
  | p :: ps =>
    match t.insert p.1 p.2 with
    | none => none
    | some t2 => insertAllFrom t2 ps

/-- Run a sequence of inserts starting from `new()`.  `insertAll ops =
some t` states that `t` is reachable by exactly the insert calls `ops`
(in order), none of which panics. -/
def insertAll (ops : List (Int × String)) : Option BPlusTree :=
  insertAllFrom BPlusTree.new ops

/-! Spec-side observers and predicates. -/

/-- Keys of a list of entries, in order. -/
def entKeys (es : List Entry) : List Int := es.map Entry.key

mutual
/-- All entries stored in a subtree, in left-to-right (in-order) order. -/
def allEntriesNode : Node → List Entry
  | .leaf entries => entries
  | .internal _ children => allEntriesList children
/-- All entries stored under a list of subtrees, in order. -/
def allEntriesList : List Node → List Entry
  | [] => []
  | c :: cs => allEntriesNode c ++ allEntriesList cs
end

/-- Entries of `es` whose key lies in the closed interval, as (key, value)
pairs in order: the reference answer of a range query. -/
def rangePairs (es : List Entry) (start stop : Int) : List (Int × String) :=
  (es.filter fun e => start ≤ e.key && e.key ≤ stop).map fun e => (e.key, e.value)

/-- The largest separator key of the root, if the root is internal and
has any separator. -/
def rootLastSep (t : BPlusTree) : Option Int :=
  match t.root with
  | .internal ks _ => ks.getLast?
  | .leaf _ => none

/-- A leaf's entry keys are strictly ascending. -/
def leafSorted (es : List Entry) : Prop := (entKeys es).Pairwise (· < ·)

/-- Optional-bound comparison: every bound present is respected. -/
def withinB (lo hi : Option Int) (k : Int) : Prop :=
  (∀ a ∈ lo, a ≤ k) ∧ (∀ b ∈ hi, k ≤ b)

/-- Shape of a child of the root in a reachable tree: a leaf, strictly
sorted, with 2 to 5 entries, all keys within the (closed) separator
bounds, and — when a lower separator exists — first entry key equal to
that separator. -/
def childOK (lo hi : Option Int) (c : Node) : Prop :=
  ∃ es, c = .leaf es ∧ leafSorted es ∧ 2 ≤ es.length ∧ es.length ≤ 2 * MIN_DEGREE - 1 ∧
    (∀ e ∈ es, withinB lo hi e.key) ∧
    (∀ a ∈ lo, (entKeys es).head? = some a)
/-- Separator/children alternation below an internal root: `fenced lo ks
cs` says `cs` has one child more than `ks` has separators, and each
child is `childOK` between its neighbouring separators (lower bound `lo`
for the first child, no upper bound for the last). -/
def fenced : Option Int → List Int → List Node → Prop
  | lo, [], [c] => childOK lo none c
  | lo, k :: ks, c :: cs => childOK lo (some k) c ∧ fenced (some k) ks cs
  | _, _, _ => False

/-- Separator list strictly ascending and strictly above the optional
lower bound. -/
def sortedFromOpt (lo : Option Int) (ks : List Int) : Prop :=
  ks.Pairwise (· < ·) ∧ ∀ a ∈ lo, ∀ x ∈ ks, a < x

/-- The inductive invariant of reachable trees: the root is a sorted
leaf with at most 5 entries, or an internal node with 1 to 5 strictly
ascending separators whose children satisfy `fenced`. -/
def TreeInv (t : BPlusTree) : Prop :=
  match t.root with
  | .leaf es => leafSorted es ∧ es.length ≤ 2 * MIN_DEGREE - 1
  | .internal ks cs =>
      ks ≠ [] ∧ ks.length ≤ 2 * MIN_DEGREE - 1 ∧ ks.Pairwise (· < ·) ∧ fenced none ks cs

/-- Recursive reformulation of the sorted leaf upsert, used to reason
about `leafUpsert` on sorted inputs. -/
def leafUpsertR (key : Int) (value : String) : List Entry → List Entry
  | [] => [⟨key, value⟩]
  | e :: es =>
      if e.key = key then ⟨key, value⟩ :: es
      else if key < e.key then ⟨key, value⟩ :: e :: es
      else e :: leafUpsertR key value es

/-- Recursive reformulation of `insert_non_full` on an internal root
whose children are leaves: walk separators and children in lockstep to
the routed position, there split a full leaf child (promoting the entry
key at index `MIN_DEGREE - 1` and choosing the side by a strict
comparison with it) and upsert into the resulting leaf. -/
def insertSeg (key : Int) (value : String) : List Int → List Node → Option (List Int × List Node)
  | [], [Node.leaf es] =>
      if (Node.leaf es).is_full then
        match es.get? (MIN_DEGREE - 1) with
        | none => none
        | some med =>
          if key > med.key then
            some ([med.key],
              [Node.leaf (es.take (MIN_DEGREE - 1)),
               Node.leaf (leafUpsert (es.drop (MIN_DEGREE - 1)) key value)])
          else
            some ([med.key],
              [Node.leaf (leafUpsert (es.take (MIN_DEGREE - 1)) key value),
               Node.leaf (es.drop (MIN_DEGREE - 1))])
      else some ([], [Node.leaf (leafUpsert es key value)])
  | k0 :: ks, Node.leaf es :: cs =>
      if key < k0 then
        if (Node.leaf es).is_full then
          match es.get? (MIN_DEGREE - 1) with
          | none => none
          | some med =>
            if key > med.key then
              some (med.key :: k0 :: ks,
                Node.leaf (es.take (MIN_DEGREE - 1)) ::
                Node.leaf (leafUpsert (es.drop (MIN_DEGREE - 1)) key value) :: cs)
            else
              some (med.key :: k0 :: ks,
                Node.leaf (leafUpsert (es.take (MIN_DEGREE - 1)) key value) ::
                Node.leaf (es.drop (MIN_DEGREE - 1)) :: cs)
        else some (k0 :: ks, Node.leaf (leafUpsert es key value) :: cs)
      else
        match insertSeg key value ks cs with
        | none => none
        | some (ks2, cs2) => some (k0 :: ks2, Node.leaf es :: cs2)
  | _, _ => none

/-- Every node of the list is a leaf. -/
def allLeaves : List Node → Prop
  | [] => True
  | c :: cs => (∃ es, c = Node.leaf es) ∧ allLeaves cs

mutual
/-- Every node of a subtree has at most `2 * MIN_DEGREE - 1` keys. -/
def allNodesCapped : Node → Prop
  | .leaf es => es.length ≤ 2 * MIN_DEGREE - 1
  | .internal ks cs => ks.length ≤ 2 * MIN_DEGREE - 1 ∧ allNodesCappedList cs
/-- Capacity bound over a list of subtrees. -/
def allNodesCappedList : List Node → Prop
  | [] => True
  | c :: cs => allNodesCapped c ∧ allNodesCappedList cs
end

mutual
/-- Every proper descendant of a node has at least `MIN_DEGREE - 1`
keys. -/
def properDescMin : Node → Prop
  | .leaf _ => True
  | .internal _ cs => properDescMinList cs
/-- Minimum-occupancy bound over a list of subtrees (each listed node is
itself a proper descendant). -/
def properDescMinList : List Node → Prop
  | [] => True
  | c :: cs => (MIN_DEGREE - 1 ≤ c.num_keys ∧ properDescMin c) ∧ properDescMinList cs
end

mutual
/-- Every internal node of a subtree has exactly one more child than it
has separator keys, and its separators are strictly ascending. -/
def arityOK : Node → Prop
  | .leaf _ => True
  | .internal ks cs => cs.length = ks.length + 1 ∧ ks.Pairwise (· < ·) ∧ arityOKList cs
/-- Arity invariant over a list of subtrees. -/
def arityOKList : List Node → Prop
  | [] => True
  | c :: cs => arityOK c ∧ arityOKList cs
end

/-- Combined history-indexed invariant: the structural invariant, every
stored entry comes from one of the performed inserts, and every inserted
key is stored. -/
def Good (seen : List (Int × String)) (t : BPlusTree) : Prop :=
  TreeInv t ∧ (∀ x ∈ allEntriesNode t.root, (x.key, x.value) ∈ seen) ∧
    (∀ p ∈ seen, p.1 ∈ entKeys (allEntriesNode t.root))

/-! Concrete input sequences used by the claim evaluations. -/

/-- Scenario A of the spec. -/
def scenarioA : List (Int × String) :=
  [(50, "apple"), (30, "cat"), (70, "dog"), (10, "elephant"), (40, "fox"),
   (60, "giraffe"), (80, "horse"), (5, "igloo"), (15, "jazz"), (35, "kite")]

/-- Fourteen ascending inserts: drives the root to a full internal node
(5 separators, 6 leaf children). -/
def seqAsc14 : List (Int × String) :=
  [(1, "a"), (2, "b"), (3, "c"), (4, "d"), (5, "e"), (6, "f"), (7, "g"),
   (8, "h"), (9, "i"), (10, "j"), (11, "k"), (12, "l"), (13, "m"), (14, "n")]

/-- Fifteen ascending inserts: the fifteenth insert meets a full internal
root and panics. -/
def seqAsc15 : List (Int × String) := seqAsc14 ++ [(15, "o")]

/-- Seven inserts then a re-insert of key 5 — which at that moment equals
the separator promoted by the split the re-insert triggers. -/
def seqDup : List (Int × String) :=
  [(1, "a"), (2, "b"), (3, "c"), (4, "d"), (5, "e"), (6, "f"), (7, "g"), (5, "z")]

/-- Six ascending inserts: produces the two-leaf tree with separator 3
used by the range-query counterexample. -/
def seqSix : List (Int × String) :=
  [(1, "a"), (2, "b"), (3, "c"), (4, "d"), (5, "e"), (6, "f")]

/-- A five-entry (full) leaf used by the split counterexample. -/
def fullLeaf5 : List Entry :=
  [⟨1, "a"⟩, ⟨2, "b"⟩, ⟨3, "c"⟩, ⟨4, "d"⟩, ⟨5, "e"⟩]

/-- A tree whose root is a full internal node and whose routed child for
key 3 is a non-full internal node; used by the frame-effect
counterexample. -/
def cexC10 : BPlusTree :=
  ⟨.internal [10, 20, 30, 40, 50]
    [.internal [5] [.leaf [⟨1, "a"⟩, ⟨2, "b"⟩], .leaf [⟨5, "c"⟩, ⟨6, "d"⟩]],
     .leaf [⟨10, "j"⟩, ⟨15, "k"⟩],
     .leaf [⟨20, "t"⟩, ⟨25, "u"⟩],
     .leaf [⟨30, "v"⟩, ⟨35, "w"⟩],
     .leaf [⟨40, "x"⟩, ⟨45, "y"⟩],
     .leaf [⟨50, "p"⟩, ⟨55, "q"⟩]],
    3⟩

/-- A tree whose root is a non-full internal node with an internal,
non-full child: witness input for the amended frame-effect claim. -/
def witC10 : BPlusTree :=
  ⟨.internal [10]
    [.internal [5] [.leaf [⟨1, "a"⟩, ⟨2, "b"⟩], .leaf [⟨5, "c"⟩, ⟨6, "d"⟩]],
     .leaf [⟨10, "j"⟩, ⟨15, "k"⟩]],
    3⟩

/-- Rebuild step used to relate `insert_non_full` on a cons cell to
`insert_non_full` on the tail list of separators and children. -/
def consNode (k0 : Int) (c : Node) : Node → Node
  | .internal ks cs => .internal (k0 :: ks) (c :: cs)
  | .leaf es => .leaf es

/-- Number of children of the root (0 for a leaf root). -/
def rootChildCount (t : BPlusTree) : Nat :=
  match t.root with
  | .internal _ cs => cs.length
  | .leaf _ => 0

/-- The lower separator bound governing the last child of a fenced
segment: the last separator when one exists, else the incoming bound. -/
def optLast (lo : Option Int) (ks : List Int) : Option Int :=
  match ks.getLast? with
  | some m => some m
  | none => lo

/-- The child the insert/search routing rule selects at the root. -/
def routedChild (t : BPlusTree) (key : Int) : Option Node :=
  match t.root with
  | .internal ks cs => cs.get? (routeIdx key ks)
  | .leaf _ => none

/-! Sanity examples: the embedding reproduces the behaviour of the
source on the repository's own test inputs. -/

example :
    (insertAll [(10, "ten"), (20, "twenty"), (5, "five")]).map
      (fun t => (t.search 10, t.search 100)) =
    some (some (some "ten"), some none) := rfl

example :
    (insertAll seqSix).map BPlusTree.all_keys = some [1, 2, 3, 4, 5, 6] := rfl

/-! Claim theorems on concrete inputs. -/

/-- C8: starting from `new()`, after inserting the ten pairs of
scenario A in order, `all_keys()` returns exactly
`[5, 10, 15, 30, 35, 40, 50, 60, 70, 80]`. -/
theorem c8_scenarioA_all_keys :
    (insertAll scenarioA).map BPlusTree.all_keys =
      some [5, 10, 15, 30, 35, 40, 50, 60, 70, 80] := rfl

/-- C1 (failing input): fourteen ascending inserts drive the root to a
full internal node, and the fifteenth insert panics (out-of-bounds read
of `keys[child_idx]` on the freshly created empty root, source line
122), contradicting the claim that insertion never fails. -/
theorem c1_fifteenth_insert_panics :
    (insertAll seqAsc14).map (fun t => (t.root.is_full, t.root.is_leaf)) =
      some (true, false) ∧
    insertAll seqAsc15 = none :=
  ⟨rfl, rfl⟩

/-- C4 (failing input): on a tree whose root is a full internal node, the
root-overflow phase produces a new root with zero separator keys and a
single child (`split_child` refuses to split an internal child), not two
children and one promoted key, and the insertion then panics. -/
theorem c4_full_internal_root_breaks :
    (insertAll seqAsc14).map (fun t => t.root.is_full) = some true ∧
    ((insertAll seqAsc14).bind growRoot).map
      (fun t => (t.root.num_keys, rootChildCount t, t.height)) = some (0, 1, 3) ∧
    (insertAll seqAsc14).bind (fun t => t.insert 15 "o") = none :=
  ⟨rfl, rfl, rfl⟩

/-- C5 (counterexample): splitting a full leaf of `2 * MIN_DEGREE - 1 =
5` entries yields a left sibling with `MIN_DEGREE - 1 = 2` entries and a
right sibling with `MIN_DEGREE = 3` entries (the promoted median key 3
stays as the right sibling's first entry), refuting the claim that both
siblings hold exactly `MIN_DEGREE - 1` keys. -/
theorem c5_split_sibling_sizes :
    split_child (.internal [] [.leaf fullLeaf5]) 0 =
      some (.internal [3]
        [.leaf [⟨1, "a"⟩, ⟨2, "b"⟩], .leaf [⟨3, "c"⟩, ⟨4, "d"⟩, ⟨5, "e"⟩]]) ∧
    (Node.leaf [⟨3, "c"⟩, ⟨4, "d"⟩, ⟨5, "e"⟩]).num_keys = MIN_DEGREE ∧
    MIN_DEGREE - 1 = 2 :=
  ⟨rfl, rfl, rfl⟩

/-- C2 (counterexample): in the tree built by the six ascending inserts
of `seqSix` the key 3 is stored (it appears in `all_keys`), yet
`range_query 3 3` returns the empty list: the last child is only visited
when `stop` strictly exceeds the largest separator, so a stored key
equal to both `stop` and the largest separator is missed. -/
theorem c2_range_misses_last_separator :
    (insertAll seqSix).map (fun t => (t.range_query 3 3, t.all_keys)) =
      some (some [], [1, 2, 3, 4, 5, 6]) := by
  have h : insertAll seqSix =
      some ⟨.internal [3]
        [.leaf [⟨1, "a"⟩, ⟨2, "b"⟩],
         .leaf [⟨3, "c"⟩, ⟨4, "d"⟩, ⟨5, "e"⟩, ⟨6, "f"⟩]], 2⟩ := rfl
  rw [h]
  simp [BPlusTree.range_query, range_query_recursive, rangeOverKeys, rangeLastChild,
    BPlusTree.all_keys, collect_keys, collectKeysList]

/-- C3 (counterexample): after `seqDup` — whose last operation re-inserts
key 5 with value "z" — `search 5` returns the value "e" of the earlier
insert: the re-insert collided with the separator 5 promoted by the
split it triggered and was placed in the left sibling, while search
routes key 5 to the right sibling holding the stale entry. -/
theorem c3_search_returns_stale_value :
    (insertAll seqDup).map (fun t => t.search 5) = some (some (some "e")) ∧
    ("e" : String) ≠ "z" :=
  ⟨rfl, by decide⟩

/-- C7 (counterexample): after `seqDup`, `all_keys()` is
`[1, 2, 3, 4, 5, 5, 6, 7]` — the key 5 occurs twice, so the enumeration
is not strictly ascending and has a repeated key. -/
theorem c7_all_keys_duplicate :
    (insertAll seqDup).map BPlusTree.all_keys = some [1, 2, 3, 4, 5, 5, 6, 7] ∧
    (insertAll seqDup).map (fun t => t.all_keys.count 5) = some 2 :=
  ⟨rfl, rfl⟩

/-- C10 (counterexample): on `cexC10` the root is internal and the child
routed for key 3 is an internal, non-full node — yet `insert` does not
return with the tree unchanged: the root is full, so the root-overflow
phase runs and the insertion panics. -/
theorem c10_full_root_panics :
    cexC10.root.is_full = true ∧
    (routedChild cexC10 3).map (fun c => (c.is_leaf, c.is_full)) =
      some (false, false) ∧
    cexC10.insert 3 "x" = none :=
  ⟨rfl, rfl, rfl⟩

/-! Lemmas about the leaf upsert. -/

/-- A membership-phrased reading of `leafSorted` on a cons cell. -/
theorem leafSorted_cons {e : Entry} {es : List Entry} :
    leafSorted (e :: es) ↔ (∀ x ∈ es, e.key < x.key) ∧ leafSorted es := by
  simp [leafSorted, entKeys, List.pairwise_cons]

/-- `position` finds nothing when the predicate fails everywhere. -/
theorem position_eq_none {p : Entry → Bool} :
    ∀ {es : List Entry}, (∀ e ∈ es, ¬ p e) → position p es = none := by
  intro es
  induction es with
  | nil => intro _; rfl
  | cons e es ih =>
      intro h
      have he : ¬ p e := h e (List.mem_cons_self e es)
      have ht := ih (fun x hx => h x (List.mem_cons_of_mem e hx))
      simp [position, he, ht]

/-- Upsert at a matching head overwrites the head's value. -/
theorem leafUpsert_cons_eq {e : Entry} {es : List Entry} {key : Int} {value : String}
    (h : e.key = key) :
    leafUpsert (e :: es) key value = ⟨key, value⟩ :: es := by
  have : (e.key == key) = true := by simp [h]
  simp [leafUpsert, position, this, setValueAt, h]

/-- Upsert below the head of a sorted leaf prepends the new entry. -/
theorem leafUpsert_cons_lt {e : Entry} {es : List Entry} {key : Int} {value : String}
    (h : key < e.key) (hs : ∀ x ∈ es, e.key < x.key) :
    leafUpsert (e :: es) key value = ⟨key, value⟩ :: e :: es := by
  have hne : (e.key == key) = false := by
    simp only [beq_eq_false_iff_ne, ne_eq]
    exact fun hh => absurd (hh ▸ h) (lt_irrefl _)
  have hnone : position (fun x => x.key == key) es = none := by
    apply position_eq_none
    intro x hx
    have : key < x.key := lt_trans h (hs x hx)
    simp only [beq_eq_false_iff_ne, ne_eq, Bool.not_eq_true, beq_eq_false_iff_ne]
    exact fun hh => absurd (hh ▸ this) (lt_irrefl _)
  simp [leafUpsert, position, hne, hnone, h, vecInsert]

/-- Upsert above the head commutes with the cons. -/
theorem leafUpsert_cons_gt {e : Entry} {es : List Entry} {key : Int} {value : String}
    (h : e.key < key) :
    leafUpsert (e :: es) key value = e :: leafUpsert es key value := by
  have hne : (e.key == key) = false := by
    simp only [beq_eq_false_iff_ne, ne_eq]
    exact fun hh => absurd (hh ▸ h) (lt_irrefl _)
  have hnlt : ¬ key < e.key := not_lt.mpr (le_of_lt h)
  cases hpos : position (fun x => x.key == key) es with
  | some p => simp [leafUpsert, position, hne, hnlt, hpos, setValueAt]
  | none =>
      cases hq : position (fun x => key < x.key) es with
      | some q => simp [leafUpsert, position, hne, hnlt, hpos, hq, vecInsert]
      | none => simp [leafUpsert, position, hne, hnlt, hpos, hq, vecInsert]

/-- On a sorted leaf, `leafUpsert` agrees with its recursive
reformulation `leafUpsertR`. -/
theorem leafUpsert_eq_R {key : Int} {value : String} :
    ∀ {es : List Entry}, leafSorted es → leafUpsert es key value = leafUpsertR key value es := by
  intro es
  induction es with
  | nil => intro _; rfl
  | cons e es ih =>
      intro hs
      obtain ⟨hgt, hs'⟩ := leafSorted_cons.mp hs
      rcases lt_trichotomy key e.key with h | h | h
      · rw [leafUpsert_cons_lt h hgt]
        have : ¬ e.key = key := fun hh => absurd (hh ▸ h) (lt_irrefl _)
        simp [leafUpsertR, this, h]
      · rw [leafUpsert_cons_eq h.symm]
        simp [leafUpsertR, h.symm]
      · rw [leafUpsert_cons_gt h]
        have h1 : ¬ e.key = key := fun hh => absurd (hh ▸ h) (lt_irrefl _)
        have h2 : ¬ key < e.key := not_lt.mpr (le_of_lt h)
        simp [leafUpsertR, h1, h2, ih hs']

/-- Unfolding lemma for `entKeys` on a cons cell. -/
theorem entKeys_cons {e : Entry} {es : List Entry} :
    entKeys (e :: es) = e.key :: entKeys es := rfl

/-- Unfolding lemma for `entKeys` on an append. -/
theorem entKeys_append {l1 l2 : List Entry} :
    entKeys (l1 ++ l2) = entKeys l1 ++ entKeys l2 := by
  simp [entKeys]

/-- Branch unfolding of `leafUpsertR`: overwrite at the head. -/
theorem leafUpsertR_cons_eq {e : Entry} {es : List Entry} {key : Int} {value : String}
    (h : e.key = key) :
    leafUpsertR key value (e :: es) = ⟨key, value⟩ :: es := by
  simp [leafUpsertR, h]

/-- Branch unfolding of `leafUpsertR`: prepend below the head. -/
theorem leafUpsertR_cons_lt {e : Entry} {es : List Entry} {key : Int} {value : String}
    (h1 : ¬ e.key = key) (h2 : key < e.key) :
    leafUpsertR key value (e :: es) = ⟨key, value⟩ :: e :: es := by
  simp [leafUpsertR, h1, h2]

/-- Branch unfolding of `leafUpsertR`: recurse above the head. -/
theorem leafUpsertR_cons_gt {e : Entry} {es : List Entry} {key : Int} {value : String}
    (h1 : ¬ e.key = key) (h2 : ¬ key < e.key) :
    leafUpsertR key value (e :: es) = e :: leafUpsertR key value es := by
  simp [leafUpsertR, h1, h2]

/-- Every entry after an upsert is the new entry or an old one. -/
theorem leafUpsertR_mem {key : Int} {value : String} :
    ∀ {es : List Entry} {x : Entry},
      x ∈ leafUpsertR key value es → x = ⟨key, value⟩ ∨ x ∈ es := by
  intro es
  induction es with
  | nil => intro x hx; simp [leafUpsertR] at hx; exact Or.inl hx
  | cons e es ih =>
      intro x hx
      by_cases h1 : e.key = key
      · rw [leafUpsertR_cons_eq h1] at hx
        rcases List.mem_cons.mp hx with rfl | hx
        · exact Or.inl rfl
        · exact Or.inr (List.mem_cons_of_mem e hx)
      · by_cases h2 : key < e.key
        · rw [leafUpsertR_cons_lt h1 h2] at hx
          rcases List.mem_cons.mp hx with rfl | hx
          · exact Or.inl rfl
          · exact Or.inr hx
        · rw [leafUpsertR_cons_gt h1 h2] at hx
          rcases List.mem_cons.mp hx with rfl | hx
          · exact Or.inr (List.mem_cons_self _ _)
          · rcases ih hx with h | h
            · exact Or.inl h
            · exact Or.inr (List.mem_cons_of_mem e h)

/-- Keys after an upsert: the new key plus the old keys. -/
theorem leafUpsertR_mem_keys {key : Int} {value : String} :
    ∀ {es : List Entry} {j : Int},
      j ∈ entKeys (leafUpsertR key value es) ↔ j = key ∨ j ∈ entKeys es := by
  intro es
  induction es with
  | nil => intro j; simp [leafUpsertR, entKeys]
  | cons e es ih =>
      intro j
      by_cases h1 : e.key = key
      · rw [leafUpsertR_cons_eq h1]
        simp only [entKeys_cons, List.mem_cons]
        rw [h1]
        tauto
      · by_cases h2 : key < e.key
        · rw [leafUpsertR_cons_lt h1 h2]
          simp only [entKeys_cons, List.mem_cons]
        · rw [leafUpsertR_cons_gt h1 h2]
          simp only [entKeys_cons, List.mem_cons, ih]
          tauto

/-- An upsert into a sorted leaf stays sorted. -/
theorem leafUpsertR_sorted {key : Int} {value : String} :
    ∀ {es : List Entry}, leafSorted es → leafSorted (leafUpsertR key value es) := by
  intro es
  induction es with
  | nil => intro _; simp [leafUpsertR, leafSorted, entKeys]
  | cons e es ih =>
      intro hs
      obtain ⟨hgt, hs2⟩ := leafSorted_cons.mp hs
      by_cases h1 : e.key = key
      · rw [leafUpsertR_cons_eq h1]
        exact leafSorted_cons.mpr ⟨fun x hx => h1 ▸ hgt x hx, hs2⟩
      · by_cases h2 : key < e.key
        · rw [leafUpsertR_cons_lt h1 h2]
          refine leafSorted_cons.mpr ⟨?_, hs⟩
          intro x hx
          rcases List.mem_cons.mp hx with rfl | hx
          · exact h2
          · exact lt_trans h2 (hgt x hx)
        · rw [leafUpsertR_cons_gt h1 h2]
          have hek : e.key < key := lt_of_le_of_ne (not_lt.mp h2) h1
          refine leafSorted_cons.mpr ⟨?_, ih hs2⟩
          intro x hx
          rcases leafUpsertR_mem hx with rfl | hx
          · exact hek
          · exact hgt x hx

/-- Length bounds of an upsert. -/
theorem leafUpsertR_length (key : Int) (value : String) :
    ∀ (es : List Entry),
      es.length ≤ (leafUpsertR key value es).length ∧
        (leafUpsertR key value es).length ≤ es.length + 1 := by
  intro es
  induction es with
  | nil => simp [leafUpsertR]
  | cons e es ih =>
      by_cases h1 : e.key = key
      · rw [leafUpsertR_cons_eq h1]; simp
      · by_cases h2 : key < e.key
        · rw [leafUpsertR_cons_lt h1 h2]; simp
        · rw [leafUpsertR_cons_gt h1 h2]
          simp only [List.length_cons]
          omega

/-- The upserted key is stored afterwards. -/
theorem leafUpsertR_key_mem {key : Int} {value : String} {es : List Entry} :
    key ∈ entKeys (leafUpsertR key value es) :=
  leafUpsertR_mem_keys.mpr (Or.inl rfl)

/-- An upsert with a key at or above the head key keeps the head key. -/
theorem leafUpsertR_head {key : Int} {value : String} :
    ∀ {es : List Entry} {a : Int},
      (entKeys es).head? = some a → a ≤ key →
        (entKeys (leafUpsertR key value es)).head? = some a := by
  intro es
  induction es with
  | nil => intro a h _; simp [entKeys] at h
  | cons e es _ =>
      intro a h hak
      have hea : e.key = a := by
        simpa [entKeys_cons] using h
      by_cases h1 : e.key = key
      · rw [leafUpsertR_cons_eq h1]
        simp only [entKeys_cons, List.head?_cons]
        rw [← h1, hea]
      · by_cases h2 : key < e.key
        · exact absurd (lt_of_le_of_lt (hea ▸ hak) h2) (lt_irrefl _)
        · rw [leafUpsertR_cons_gt h1 h2]
          simp only [entKeys_cons, List.head?_cons, hea]

/-! Lemmas about `fenced` and `childOK`. -/

/-- Inversion of `fenced` with no separator: a single child. -/
theorem fenced_nil_inv {lo : Option Int} {cs : List Node} (h : fenced lo [] cs) :
    ∃ c, cs = [c] ∧ childOK lo none c := by
  match cs with
  | [] => exact absurd h (by simp [fenced])
  | [c] => exact ⟨c, rfl, h⟩
  | c :: c2 :: t => exact absurd h (by simp [fenced])

/-- Inversion of `fenced` with a head separator. -/
theorem fenced_cons_inv {lo : Option Int} {k : Int} {ks : List Int} {cs : List Node}
    (h : fenced lo (k :: ks) cs) :
    ∃ c cs2, cs = c :: cs2 ∧ childOK lo (some k) c ∧ fenced (some k) ks cs2 := by
  match cs with
  | [] => exact absurd h (by simp [fenced])
  | c :: cs2 => exact ⟨c, cs2, rfl, h.1, h.2⟩

/-- A fenced child list has one node more than there are separators. -/
theorem fenced_length {ks : List Int} :
    ∀ {lo : Option Int} {cs : List Node}, fenced lo ks cs → cs.length = ks.length + 1 := by
  induction ks with
  | nil =>
      intro lo cs h
      obtain ⟨c, rfl, _⟩ := fenced_nil_inv h
      rfl
  | cons k ks ih =>
      intro lo cs h
      obtain ⟨c, cs2, rfl, _, h2⟩ := fenced_cons_inv h
      simp [ih h2]

/-- Every fenced child is a leaf. -/
theorem fenced_leaves {ks : List Int} :
    ∀ {lo : Option Int} {cs : List Node}, fenced lo ks cs → allLeaves cs := by
  induction ks with
  | nil =>
      intro lo cs h
      obtain ⟨c, rfl, hc⟩ := fenced_nil_inv h
      obtain ⟨es, rfl, _⟩ := hc
      exact ⟨⟨es, rfl⟩, trivial⟩
  | cons k ks ih =>
      intro lo cs h
      obtain ⟨c, cs2, rfl, hc, h2⟩ := fenced_cons_inv h
      obtain ⟨es, rfl, _⟩ := hc
      exact ⟨⟨es, rfl⟩, ih h2⟩

/-- Unpacking a successful `find?` for an exact key. -/
theorem find_entry_eq {es : List Entry} {k : Int} {x : Entry}
    (h : es.find? (fun e => e.key == k) = some x) : x ∈ es ∧ x.key = k := by
  refine ⟨List.mem_of_find?_eq_some h, ?_⟩
  have := List.find?_some h
  simpa using this

/-- A stored key is always found by `find?`. -/
theorem find_entry_exists {es : List Entry} {k : Int} (h : k ∈ entKeys es) :
    ∃ x, es.find? (fun e => e.key == k) = some x := by
  cases hf : es.find? (fun e => e.key == k) with
  | some x => exact ⟨x, rfl⟩
  | none =>
      exfalso
      obtain ⟨e, he, hek⟩ := List.mem_map.mp h
      have := List.find?_eq_none.mp hf e he
      simp [hek] at this

/-- Upsert preserves `childOK` when the key respects the bounds and the
leaf is not at full capacity. -/
theorem childOK_upsert {lo hi : Option Int} {key : Int} {value : String} {es : List Entry}
    (h : childOK lo hi (.leaf es)) (hlen : es.length ≤ 2 * MIN_DEGREE - 2)
    (hlo : ∀ a ∈ lo, a ≤ key) (hhi : ∀ b ∈ hi, key ≤ b) :
    childOK lo hi (.leaf (leafUpsert es key value)) := by
  obtain ⟨es0, heq, hsort, hmin, hmax, hbounds, hhead⟩ := h
  injection heq with heq2
  subst heq2
  rw [leafUpsert_eq_R hsort]
  refine ⟨_, rfl, leafUpsertR_sorted hsort, ?_, ?_, ?_, ?_⟩
  · exact le_trans hmin (leafUpsertR_length key value es).1
  · have := (leafUpsertR_length key value es).2
    omega
  · intro e he
    rcases leafUpsertR_mem he with rfl | he
    · exact ⟨hlo, hhi⟩
    · exact hbounds e he
  · intro a ha
    exact leafUpsertR_head (hhead a ha) (hlo a ha)

/-! Bridge: `insert_non_full` on an internal root of leaves equals the
recursive reformulation `insertSeg`. -/

/-- Unfolding of `vecInsert` at position zero. -/
theorem vecInsert_zero {α : Type} (x : α) (l : List α) : vecInsert x 0 l = x :: l := rfl

/-- Unfolding of `vecInsert` at a successor position on a cons cell. -/
theorem vecInsert_succ_cons {α : Type} (x a : α) (n : Nat) (l : List α) :
    vecInsert x (n + 1) (a :: l) = a :: vecInsert x n l := rfl

/-- Unfolding of `consNode` on an internal node. -/
theorem consNode_internal {k0 : Int} {c : Node} {ks : List Int} {cs : List Node} :
    consNode k0 c (.internal ks cs) = .internal (k0 :: ks) (c :: cs) := rfl

/-- Unfolding of `consNode` on a leaf. -/
theorem consNode_leaf {k0 : Int} {c : Node} {es : List Entry} :
    consNode k0 c (.leaf es) = .leaf es := rfl

/-- Fullness of a leaf in terms of its entry count. -/
theorem is_full_leaf_iff {es : List Entry} :
    (Node.leaf es).is_full = true ↔ 2 * MIN_DEGREE - 1 ≤ es.length := by
  simp [Node.is_full, Node.num_keys]

/-- `split_child` at a successor index ignores the head separator and
child. -/
theorem split_child_cons {k0 : Int} {c : Node} {ks : List Int} {cs : List Node} {j : Nat} :
    split_child (.internal (k0 :: ks) (c :: cs)) (j + 1) =
      (split_child (.internal ks cs) j).map (consNode k0 c) := by
  simp only [split_child, List.get?_cons_succ]
  cases h : cs.get? j with
  | none => rfl
  | some child =>
    cases child with
    | internal ks2 cs2 => simp [consNode]
    | leaf entries =>
      by_cases hlen : entries.length > MIN_DEGREE - 1
      · simp only [if_pos hlen]
        cases hm : entries.get? (MIN_DEGREE - 1) with
        | none => rfl
        | some med =>
          by_cases hguard : j ≤ ks.length
          · have hg2 : j + 1 ≤ (k0 :: ks).length := by
              simp only [List.length_cons]; omega
            simp only [if_pos hguard, if_pos hg2, vecInsert_succ_cons,
              List.set_cons_succ]
            rfl
          · have hg2 : ¬ (j + 1 ≤ (k0 :: ks).length) := by
              simp only [List.length_cons]; omega
            simp only [if_neg hguard, if_neg hg2]
            rfl
      · simp only [if_neg hlen]
        rfl

/-- `insert_into_child` at a successor index ignores the head separator
and child. -/
theorem insert_into_child_cons {k0 : Int} {c : Node} {ks : List Int} {cs : List Node}
    {j : Nat} {key : Int} {value : String} :
    insert_into_child (.internal (k0 :: ks) (c :: cs)) (j + 1) key value =
      (insert_into_child (.internal ks cs) j key value).map (consNode k0 c) := by
  simp only [insert_into_child, List.get?_cons_succ]
  cases h : cs.get? j with
  | none => rfl
  | some child =>
    cases child with
    | internal ks2 cs2 => simp [consNode]
    | leaf entries => simp [consNode, List.set_cons_succ]

/-- `insert_non_full` on an internal root ignores a head separator that
does not exceed the key, acting on the tail. -/
theorem insert_non_full_cons {k0 : Int} {c : Node} {ks : List Int} {cs : List Node}
    {key : Int} {value : String} (hk : ¬ key < k0) :
    insert_non_full (.internal (k0 :: ks) (c :: cs)) key value =
      (insert_non_full (.internal ks cs) key value).map (consNode k0 c) := by
  have hroute : routeIdx key (k0 :: ks) = routeIdx key ks + 1 := by
    simp [routeIdx, hk]
  simp only [insert_non_full, hroute, List.get?_cons_succ]
  cases h : cs.get? (routeIdx key ks) with
  | none => rfl
  | some c2 =>
    by_cases hf : c2.is_full
    · simp only [if_pos hf, split_child_internal, split_child_cons]
      cases hs : split_child (.internal ks cs) (routeIdx key ks) with
      | none => rfl
      | some root2 =>
        cases root2 with
        | leaf es2 =>
            simp only [Option.map_some', consNode_leaf]
            simp only [insert_into_child]
            exact congrArg some consNode_leaf.symm
        | internal ks2 cs2 =>
            simp only [Option.map_some', consNode_internal, List.get?_cons_succ]
            cases hg : ks2.get? (routeIdx key ks) with
            | none => rfl
            | some key_val =>
                show insert_into_child (Node.internal (k0 :: ks2) (c :: cs2))
                    (if key > key_val then routeIdx key ks + 1 + 1 else routeIdx key ks + 1)
                    key value =
                  Option.map (consNode k0 c)
                    (insert_into_child (Node.internal ks2 cs2)
                      (if key > key_val then routeIdx key ks + 1 else routeIdx key ks)
                      key value)
                have hidx : (if key > key_val then routeIdx key ks + 1 + 1
                      else routeIdx key ks + 1) =
                    (if key > key_val then routeIdx key ks + 1 else routeIdx key ks) + 1 := by
                  split <;> rfl
                rw [hidx]
                exact insert_into_child_cons
    · simp only [if_neg hf]
      exact insert_into_child_cons

/-- `insert_non_full` when the routing loop selects index 0 and the first
child is a leaf: explicit description of the result. -/
theorem insert_non_full_zero {ks : List Int} {cs : List Node} {es : List Entry}
    {key : Int} {value : String} (h0 : routeIdx key ks = 0) :
    insert_non_full (.internal ks (Node.leaf es :: cs)) key value =
      (if (Node.leaf es).is_full then
        match es.get? (MIN_DEGREE - 1) with
        | none => none
        | some med =>
          if key > med.key then
            some (.internal (med.key :: ks)
              (Node.leaf (es.take (MIN_DEGREE - 1)) ::
               Node.leaf (leafUpsert (es.drop (MIN_DEGREE - 1)) key value) :: cs))
          else
            some (.internal (med.key :: ks)
              (Node.leaf (leafUpsert (es.take (MIN_DEGREE - 1)) key value) ::
               Node.leaf (es.drop (MIN_DEGREE - 1)) :: cs))
      else some (.internal ks (Node.leaf (leafUpsert es key value) :: cs))) := by
  by_cases hf : (Node.leaf es).is_full
  · have h5 : 2 * MIN_DEGREE - 1 ≤ es.length := is_full_leaf_iff.mp hf
    have hgt : es.length > MIN_DEGREE - 1 := by
      simp only [MIN_DEGREE] at h5 ⊢; omega
    cases hm : es.get? (MIN_DEGREE - 1) with
    | none =>
        simp only [insert_non_full, h0, List.get?_cons_zero, hf, if_true,
          split_child_internal, split_child, if_pos hgt, hm]
    | some med =>
        have hg0 : 0 ≤ ks.length := Nat.zero_le _
        by_cases hkm : key > med.key
        · simp only [insert_non_full, h0, List.get?_cons_zero, hf, if_true,
            split_child_internal, split_child, if_pos hgt, hm, if_pos hg0,
            vecInsert_zero, vecInsert_succ_cons, List.set_cons_zero,
            insert_into_child, List.get?_cons_succ, List.set_cons_succ,
            if_pos hkm]
        · simp only [insert_non_full, h0, List.get?_cons_zero, hf, if_true,
            split_child_internal, split_child, if_pos hgt, hm, if_pos hg0,
            vecInsert_zero, vecInsert_succ_cons, List.set_cons_zero,
            insert_into_child, List.get?_cons_succ, List.set_cons_succ,
            if_neg hkm]
  · simp only [insert_non_full, h0, List.get?_cons_zero, hf, if_false,
      insert_into_child, List.set_cons_zero, Bool.false_eq_true]

/-- On an internal root whose children are one more leaf than there are
separators, `insert_non_full` computes exactly `insertSeg`. -/
theorem insert_non_full_eq_seg (key : Int) (value : String) :
    ∀ (ks : List Int) (cs : List Node), allLeaves cs → cs.length = ks.length + 1 →
      insert_non_full (.internal ks cs) key value =
        (insertSeg key value ks cs).map (fun p => Node.internal p.1 p.2) := by
  intro ks
  induction ks with
  | nil =>
      intro cs hl hlen
      obtain ⟨c, rfl⟩ := List.length_eq_one.mp (by simpa using hlen)
      obtain ⟨⟨es, rfl⟩, -⟩ := hl
      rw [insert_non_full_zero (rfl : routeIdx key [] = 0)]
      by_cases hf : (Node.leaf es).is_full
      · cases hm : es[MIN_DEGREE - 1]? with
        | none => simp [insertSeg, hf, hm]
        | some med =>
            by_cases hkm : key > med.key
            · simp [insertSeg, hf, hm, hkm]
            · simp [insertSeg, hf, hm, hkm]
      · simp [insertSeg, hf]
  | cons k0 ks ih =>
      intro cs hl hlen
      match cs, hl, hlen with
      | c :: cs, hl, hlen =>
        obtain ⟨⟨es, rfl⟩, hl2⟩ := hl
        have hlen2 : cs.length = ks.length + 1 := by simpa using hlen
        by_cases hk : key < k0
        · have h0 : routeIdx key (k0 :: ks) = 0 := by simp [routeIdx, hk]
          rw [insert_non_full_zero h0]
          by_cases hf : (Node.leaf es).is_full
          · cases hm : es[MIN_DEGREE - 1]? with
            | none => simp [insertSeg, hk, hf, hm]
            | some med =>
                by_cases hkm : key > med.key
                · simp [insertSeg, hk, hf, hm, hkm]
                · simp [insertSeg, hk, hf, hm, hkm]
          · simp [insertSeg, hk, hf]
        · rw [insert_non_full_cons hk, ih cs hl2 hlen2]
          cases hseg : insertSeg key value ks cs with
          | none => simp [insertSeg, hk, hseg]
          | some p =>
              match p with
              | (ks2, cs2) =>
                simp [insertSeg, hk, hseg, consNode_internal]

/-! Preservation of the invariant under `insertSeg`. -/

/-- Unfolding of `allEntriesList` on a cons cell. -/
theorem allEntriesList_cons {c : Node} {cs : List Node} :
    allEntriesList (c :: cs) = allEntriesNode c ++ allEntriesList cs := rfl

/-- Unfolding of `allEntriesList` on the empty list. -/
theorem allEntriesList_nil : allEntriesList [] = [] := rfl

/-- Unfolding of `allEntriesNode` on a leaf. -/
theorem allEntriesNode_leaf {es : List Entry} : allEntriesNode (.leaf es) = es := rfl

/-- Numeric value of `MIN_DEGREE - 1`. -/
theorem mdeg_sub_one : MIN_DEGREE - 1 = 2 := rfl

/-- Numeric value of the full threshold. -/
theorem mdeg_full : 2 * MIN_DEGREE - 1 = 5 := rfl

/-- Numeric value of one below the full threshold. -/
theorem mdeg_m2 : 2 * MIN_DEGREE - 2 = 4 := rfl

/-- A list of length five is an explicit five-element list. -/
theorem list_len5 {α : Type} {l : List α} (h : l.length = 5) :
    ∃ a b c d e, l = [a, b, c, d, e] := by
  match l with
  | [a, b, c, d, e] => exact ⟨a, b, c, d, e, rfl⟩
  | [] => simp at h
  | [a] => simp at h
  | [a, b] => simp at h
  | [a, b, c] => simp at h
  | [a, b, c, d] => simp at h
  | a :: b :: c :: d :: e :: f :: t => simp only [List.length_cons] at h; omega

/-- Unpacking `childOK` at a leaf. -/
theorem childOK_leaf_inv {lo hi : Option Int} {es : List Entry}
    (h : childOK lo hi (.leaf es)) :
    leafSorted es ∧ 2 ≤ es.length ∧ es.length ≤ 2 * MIN_DEGREE - 1 ∧
      (∀ e ∈ es, withinB lo hi e.key) ∧ (∀ a ∈ lo, (entKeys es).head? = some a) := by
  obtain ⟨es0, heq, h1, h2, h3, h4, h5⟩ := h
  injection heq with heq2
  subst heq2
  exact ⟨h1, h2, h3, h4, h5⟩

/-- Splitting a full, sorted, fenced leaf: the median entry exists, the
two halves are again fenced around the median key, and the median key
lies strictly between the bounds. -/
theorem split_full_childOK {lo hi : Option Int} {es : List Entry}
    (hc : childOK lo hi (.leaf es)) (hfull : (Node.leaf es).is_full = true) :
    ∃ med, es[MIN_DEGREE - 1]? = some med ∧
      es.take (MIN_DEGREE - 1) ++ es.drop (MIN_DEGREE - 1) = es ∧
      (es.take (MIN_DEGREE - 1)).length = 2 ∧ (es.drop (MIN_DEGREE - 1)).length = 3 ∧
      childOK lo (some med.key) (.leaf (es.take (MIN_DEGREE - 1))) ∧
      childOK (some med.key) hi (.leaf (es.drop (MIN_DEGREE - 1))) ∧
      (∀ a ∈ lo, a < med.key) ∧ (∀ b ∈ hi, med.key < b) := by
  obtain ⟨hsort, hmin, hmax, hbounds, hhead⟩ := childOK_leaf_inv hc
  have h5 : es.length = 5 := by
    have := is_full_leaf_iff.mp hfull
    rw [mdeg_full] at this hmax
    omega
  obtain ⟨e0, e1, e2, e3, e4, rfl⟩ := list_len5 h5
  have hs := hsort
  simp only [leafSorted, entKeys, List.map_cons, List.map_nil, List.pairwise_cons,
    List.mem_cons, List.mem_singleton, List.not_mem_nil] at hs
  obtain ⟨hp0, hp1, hp2, hp3, -⟩ := hs
  have h01 : e0.key < e1.key := hp0 e1.key (by simp)
  have h02 : e0.key < e2.key := hp0 e2.key (by simp)
  have h12 : e1.key < e2.key := hp1 e2.key (by simp)
  have h23 : e2.key < e3.key := hp2 e3.key (by simp)
  have h24 : e2.key < e4.key := hp2 e4.key (by simp)
  have h34 : e3.key < e4.key := hp3 e4.key (by simp)
  refine ⟨e2, rfl, rfl, rfl, rfl, ?_, ?_, ?_, ?_⟩
  · refine ⟨[e0, e1], rfl, ?_, by simp, by rw [mdeg_full]; simp, ?_, ?_⟩
    · simp [leafSorted, entKeys, List.pairwise_cons, h01]
    · intro e he
      refine ⟨fun a ha => (hbounds e ?_).1 a ha, fun b hb => ?_⟩
      · rcases List.mem_cons.mp he with rfl | he
        · simp
        · rcases List.mem_cons.mp he with rfl | he
          · simp
          · simp at he
      · have hb2 : b = e2.key := (by simpa using hb : e2.key = b).symm
        subst hb2
        rcases List.mem_cons.mp he with rfl | he
        · exact le_of_lt h02
        · rcases List.mem_cons.mp he with rfl | he
          · exact le_of_lt h12
          · simp at he
    · intro a ha
      have := hhead a ha
      simpa [entKeys] using this
  · refine ⟨[e2, e3, e4], rfl, ?_, by simp, by rw [mdeg_full]; simp, ?_, ?_⟩
    · simp [leafSorted, entKeys, List.pairwise_cons, h23, h24, h34]
    · intro e he
      refine ⟨fun a ha => ?_, fun b hb => (hbounds e ?_).2 b hb⟩
      · have ha2 : a = e2.key := (by simpa using ha : e2.key = a).symm
        subst ha2
        rcases List.mem_cons.mp he with rfl | he
        · exact le_refl _
        · rcases List.mem_cons.mp he with rfl | he
          · exact le_of_lt h23
          · rcases List.mem_cons.mp he with rfl | he
            · exact le_of_lt h24
            · simp at he
      · rcases List.mem_cons.mp he with rfl | he
        · simp
        · rcases List.mem_cons.mp he with rfl | he
          · simp
          · rcases List.mem_cons.mp he with rfl | he
            · simp
            · simp at he
    · intro a ha
      have ha2 : a = e2.key := (by simpa using ha : e2.key = a).symm
      simp [entKeys, ha2]
  · intro a ha
    have := hhead a ha
    simp [entKeys] at this
    calc a = e0.key := this.symm
    _ < e2.key := h02
  · intro b hb
    have := (hbounds e3 (by simp)).2 b hb
    exact lt_of_lt_of_le h23 this

/-- Entries after a sorted-leaf upsert: the new pair or an old entry. -/
theorem leafUpsert_mem {es : List Entry} {key : Int} {value : String}
    (hs : leafSorted es) :
    ∀ x ∈ leafUpsert es key value, (x.key = key ∧ x.value = value) ∨ x ∈ es := by
  rw [leafUpsert_eq_R hs]
  intro x hx
  rcases leafUpsertR_mem hx with rfl | hx
  · exact Or.inl ⟨rfl, rfl⟩
  · exact Or.inr hx

/-- The upserted key is stored after a sorted-leaf upsert. -/
theorem leafUpsert_key_mem {es : List Entry} {key : Int} {value : String}
    (hs : leafSorted es) : key ∈ entKeys (leafUpsert es key value) := by
  rw [leafUpsert_eq_R hs]
  exact leafUpsertR_key_mem

/-- Old keys survive a sorted-leaf upsert. -/
theorem leafUpsert_keys_sub {es : List Entry} {key : Int} {value : String}
    (hs : leafSorted es) :
    ∀ j ∈ entKeys es, j ∈ entKeys (leafUpsert es key value) := by
  rw [leafUpsert_eq_R hs]
  intro j hj
  exact leafUpsertR_mem_keys.mpr (Or.inr hj)

/-- Main preservation lemma: on a fenced segment, `insertSeg` succeeds
and preserves the fence, the separator ordering and the key bookkeeping,
adding at most one separator. -/
theorem seg_main (key : Int) (value : String) :
    ∀ {ks : List Int} {lo : Option Int} {cs : List Node},
      fenced lo ks cs → sortedFromOpt lo ks → (∀ a ∈ lo, a ≤ key) →
      ∃ ks2 cs2, insertSeg key value ks cs = some (ks2, cs2) ∧
        fenced lo ks2 cs2 ∧ sortedFromOpt lo ks2 ∧
        ks.length ≤ ks2.length ∧ ks2.length ≤ ks.length + 1 ∧
        (∀ x ∈ allEntriesList cs2,
          (x.key = key ∧ x.value = value) ∨ x ∈ allEntriesList cs) ∧
        key ∈ entKeys (allEntriesList cs2) ∧
        (∀ j ∈ entKeys (allEntriesList cs), j ∈ entKeys (allEntriesList cs2)) := by
  intro ks
  induction ks with
  | nil =>
      intro lo cs hf hsorted hlokey
      obtain ⟨c, rfl, hc⟩ := fenced_nil_inv hf
      obtain ⟨es, rfl, hso, hmin, hmax, hbnd, hhd⟩ := hc
      have hc2 : childOK lo none (.leaf es) := ⟨es, rfl, hso, hmin, hmax, hbnd, hhd⟩
      by_cases hfull : (Node.leaf es).is_full
      · obtain ⟨med, hmed, happ, hLlen, hRlen, hLok, hRok, hlolt, -⟩ :=
          split_full_childOK hc2 hfull
        have hsoL : leafSorted (es.take (MIN_DEGREE - 1)) := (childOK_leaf_inv hLok).1
        have hsoR : leafSorted (es.drop (MIN_DEGREE - 1)) := (childOK_leaf_inv hRok).1
        by_cases hkm : key > med.key
        · have hRok2 : childOK (some med.key) none
              (.leaf (leafUpsert (es.drop (MIN_DEGREE - 1)) key value)) := by
            refine childOK_upsert hRok ?_ ?_ ?_
            · rw [hRlen]; decide
            · intro a ha
              have : med.key = a := by simpa using ha
              exact this ▸ le_of_lt hkm
            · intro b hb; simp at hb
          refine ⟨[med.key],
            [.leaf (es.take (MIN_DEGREE - 1)),
             .leaf (leafUpsert (es.drop (MIN_DEGREE - 1)) key value)], ?_, ?_, ?_, ?_, ?_,
            ?_, ?_, ?_⟩
          · simp [insertSeg, hfull, hmed, hkm]
          · exact ⟨hLok, hRok2⟩
          · refine ⟨List.pairwise_singleton _ _, ?_⟩
            intro a ha x hx
            have : x = med.key := by simpa using hx
            exact this ▸ hlolt a ha
          · simp
          · simp
          · intro x hx
            simp only [allEntriesList_cons, allEntriesNode_leaf, allEntriesList_nil, List.append_nil,
              List.mem_append] at hx
            simp only [allEntriesList_cons, allEntriesNode_leaf, allEntriesList_nil, List.append_nil]
            rcases hx with hx | hx
            · exact Or.inr (happ ▸ List.mem_append_left _ hx)
            · rcases leafUpsert_mem hsoR x hx with h | h
              · exact Or.inl h
              · exact Or.inr (happ ▸ List.mem_append_right _ h)
          · simp only [allEntriesList_cons, allEntriesNode_leaf, allEntriesList_nil, List.append_nil,
              entKeys_append]
            exact List.mem_append_right _ (leafUpsert_key_mem hsoR)
          · intro j hj
            simp only [allEntriesList_cons, allEntriesNode_leaf, allEntriesList_nil, List.append_nil] at hj ⊢
            rw [← happ, entKeys_append] at hj
            rw [entKeys_append]
            rcases List.mem_append.mp hj with h | h
            · exact List.mem_append_left _ h
            · exact List.mem_append_right _ (leafUpsert_keys_sub hsoR j h)
        · have hLok2 : childOK lo (some med.key)
              (.leaf (leafUpsert (es.take (MIN_DEGREE - 1)) key value)) := by
            refine childOK_upsert hLok ?_ hlokey ?_
            · rw [hLlen]; decide
            · intro b hb
              have : med.key = b := by simpa using hb
              exact this ▸ not_lt.mp hkm
          refine ⟨[med.key],
            [.leaf (leafUpsert (es.take (MIN_DEGREE - 1)) key value),
             .leaf (es.drop (MIN_DEGREE - 1))], ?_, ?_, ?_, ?_, ?_, ?_, ?_, ?_⟩
          · simp [insertSeg, hfull, hmed, hkm]
          · exact ⟨hLok2, hRok⟩
          · refine ⟨List.pairwise_singleton _ _, ?_⟩
            intro a ha x hx
            have : x = med.key := by simpa using hx
            exact this ▸ hlolt a ha
          · simp
          · simp
          · intro x hx
            simp only [allEntriesList_cons, allEntriesNode_leaf, allEntriesList_nil, List.append_nil,
              List.mem_append] at hx
            rcases hx with hx | hx
            · rcases leafUpsert_mem hsoL x hx with h | h
              · exact Or.inl h
              · exact Or.inr (by
                  simp only [allEntriesList_cons, allEntriesNode_leaf, allEntriesList_nil, List.append_nil]
                  exact happ ▸ List.mem_append_left _ h)
            · exact Or.inr (by
                simp only [allEntriesList_cons, allEntriesNode_leaf, allEntriesList_nil, List.append_nil]
                exact happ ▸ List.mem_append_right _ hx)
          · simp only [allEntriesList_cons, allEntriesNode_leaf, allEntriesList_nil, List.append_nil,
              entKeys_append]
            exact List.mem_append_left _ (leafUpsert_key_mem hsoL)
          · intro j hj
            simp only [allEntriesList_cons, allEntriesNode_leaf, allEntriesList_nil, List.append_nil] at hj ⊢
            rw [← happ, entKeys_append] at hj
            rw [entKeys_append]
            rcases List.mem_append.mp hj with h | h
            · exact List.mem_append_left _ (leafUpsert_keys_sub hsoL j h)
            · exact List.mem_append_right _ h
      · have hlen4 : es.length ≤ 2 * MIN_DEGREE - 2 := by
          have : ¬ (2 * MIN_DEGREE - 1 ≤ es.length) := fun hh =>
            hfull (is_full_leaf_iff.mpr hh)
          rw [mdeg_full] at this
          rw [mdeg_m2]
          omega
        have hok : childOK lo none (.leaf (leafUpsert es key value)) :=
          childOK_upsert hc2 hlen4 hlokey (by intro b hb; simp at hb)
        refine ⟨[], [.leaf (leafUpsert es key value)], ?_, hok, ⟨List.Pairwise.nil, by simp⟩,
          by simp, by simp, ?_, ?_, ?_⟩
        · simp [insertSeg, hfull]
        · intro x hx
          simp only [allEntriesList_cons, allEntriesNode_leaf, allEntriesList_nil, List.append_nil] at hx ⊢
          rcases leafUpsert_mem hso x hx with h | h
          · exact Or.inl h
          · exact Or.inr h
        · simp only [allEntriesList_cons, allEntriesNode_leaf, allEntriesList_nil, List.append_nil]
          exact leafUpsert_key_mem hso
        · intro j hj
          simp only [allEntriesList_cons, allEntriesNode_leaf, allEntriesList_nil, List.append_nil] at hj ⊢
          exact leafUpsert_keys_sub hso j hj
  | cons k0 ks ih =>
      intro lo cs hf hsorted hlokey
      obtain ⟨c, cs0, rfl, hc, hftail⟩ := fenced_cons_inv hf
      obtain ⟨es, rfl, hso, hmin, hmax, hbnd, hhd⟩ := hc
      have hc2 : childOK lo (some k0) (.leaf es) := ⟨es, rfl, hso, hmin, hmax, hbnd, hhd⟩
      obtain ⟨hpair, hloks⟩ := hsorted
      have hk0ks : ∀ x ∈ ks, k0 < x := (List.pairwise_cons.mp hpair).1
      have hpairks : ks.Pairwise (· < ·) := (List.pairwise_cons.mp hpair).2
      by_cases hk : key < k0
      · by_cases hfull : (Node.leaf es).is_full
        · obtain ⟨med, hmed, happ, hLlen, hRlen, hLok, hRok, hlolt, hhilt⟩ :=
            split_full_childOK hc2 hfull
          have hmedk0 : med.key < k0 := hhilt k0 (by simp)
          have hsoL : leafSorted (es.take (MIN_DEGREE - 1)) := (childOK_leaf_inv hLok).1
          have hsoR : leafSorted (es.drop (MIN_DEGREE - 1)) := (childOK_leaf_inv hRok).1
          have hsorted2 : sortedFromOpt lo (med.key :: k0 :: ks) := by
            refine ⟨?_, ?_⟩
            · refine List.pairwise_cons.mpr ⟨?_, hpair⟩
              intro x hx
              rcases List.mem_cons.mp hx with rfl | hx
              · exact hmedk0
              · exact lt_trans hmedk0 (hk0ks x hx)
            · intro a ha x hx
              rcases List.mem_cons.mp hx with rfl | hx
              · exact hlolt a ha
              · exact hloks a ha x hx
          by_cases hkm : key > med.key
          · have hRok2 : childOK (some med.key) (some k0)
                (.leaf (leafUpsert (es.drop (MIN_DEGREE - 1)) key value)) := by
              refine childOK_upsert hRok ?_ ?_ ?_
              · rw [hRlen]; decide
              · intro a ha
                have : med.key = a := by simpa using ha
                exact this ▸ le_of_lt hkm
              · intro b hb
                have : k0 = b := by simpa using hb
                exact this ▸ le_of_lt hk
            refine ⟨med.key :: k0 :: ks,
              Node.leaf (es.take (MIN_DEGREE - 1)) ::
              Node.leaf (leafUpsert (es.drop (MIN_DEGREE - 1)) key value) :: cs0,
              ?_, ⟨hLok, hRok2, hftail⟩, hsorted2, by simp, by simp, ?_, ?_, ?_⟩
            · simp [insertSeg, hk, hfull, hmed, hkm]
            · intro x hx
              simp only [allEntriesList_cons, allEntriesNode_leaf, List.mem_append] at hx ⊢
              rcases hx with hx | hx | hx
              · exact Or.inr (Or.inl (happ ▸ List.mem_append_left _ hx))
              · rcases leafUpsert_mem hsoR x hx with h | h
                · exact Or.inl h
                · exact Or.inr (Or.inl (happ ▸ List.mem_append_right _ h))
              · exact Or.inr (Or.inr hx)
            · simp only [allEntriesList_cons, allEntriesNode_leaf, entKeys_append,
                List.mem_append]
              exact Or.inr (Or.inl (leafUpsert_key_mem hsoR))
            · intro j hj
              simp only [allEntriesList_cons, allEntriesNode_leaf, entKeys_append,
                List.mem_append] at hj ⊢
              rcases hj with hj | hj
              · rw [← happ, entKeys_append] at hj
                rcases List.mem_append.mp hj with h | h
                · exact Or.inl h
                · exact Or.inr (Or.inl (leafUpsert_keys_sub hsoR j h))
              · exact Or.inr (Or.inr hj)
          · have hLok2 : childOK lo (some med.key)
                (.leaf (leafUpsert (es.take (MIN_DEGREE - 1)) key value)) := by
              refine childOK_upsert hLok ?_ hlokey ?_
              · rw [hLlen]; decide
              · intro b hb
                have : med.key = b := by simpa using hb
                exact this ▸ not_lt.mp hkm
            refine ⟨med.key :: k0 :: ks,
              Node.leaf (leafUpsert (es.take (MIN_DEGREE - 1)) key value) ::
              Node.leaf (es.drop (MIN_DEGREE - 1)) :: cs0,
              ?_, ⟨hLok2, hRok, hftail⟩, hsorted2, by simp, by simp, ?_, ?_, ?_⟩
            · simp [insertSeg, hk, hfull, hmed, hkm]
            · intro x hx
              simp only [allEntriesList_cons, allEntriesNode_leaf, List.mem_append] at hx ⊢
              rcases hx with hx | hx | hx
              · rcases leafUpsert_mem hsoL x hx with h | h
                · exact Or.inl h
                · exact Or.inr (Or.inl (happ ▸ List.mem_append_left _ h))
              · exact Or.inr (Or.inl (happ ▸ List.mem_append_right _ hx))
              · exact Or.inr (Or.inr hx)
            · simp only [allEntriesList_cons, allEntriesNode_leaf, entKeys_append,
                List.mem_append]
              exact Or.inl (leafUpsert_key_mem hsoL)
            · intro j hj
              simp only [allEntriesList_cons, allEntriesNode_leaf, entKeys_append,
                List.mem_append] at hj ⊢
              rcases hj with hj | hj
              · rw [← happ, entKeys_append] at hj
                rcases List.mem_append.mp hj with h | h
                · exact Or.inl (leafUpsert_keys_sub hsoL j h)
                · exact Or.inr (Or.inl h)
              · exact Or.inr (Or.inr hj)
        · have hlen4 : es.length ≤ 2 * MIN_DEGREE - 2 := by
            have : ¬ (2 * MIN_DEGREE - 1 ≤ es.length) := fun hh =>
              hfull (is_full_leaf_iff.mpr hh)
            rw [mdeg_full] at this
            rw [mdeg_m2]
            omega
          have hok : childOK lo (some k0) (.leaf (leafUpsert es key value)) := by
            refine childOK_upsert hc2 hlen4 hlokey ?_
            intro b hb
            have : k0 = b := by simpa using hb
            exact this ▸ le_of_lt hk
          refine ⟨k0 :: ks, Node.leaf (leafUpsert es key value) :: cs0, ?_,
            ⟨hok, hftail⟩, ⟨hpair, hloks⟩, by simp, by simp, ?_, ?_, ?_⟩
          · simp [insertSeg, hk, hfull]
          · intro x hx
            simp only [allEntriesList_cons, allEntriesNode_leaf, List.mem_append] at hx ⊢
            rcases hx with hx | hx
            · rcases leafUpsert_mem hso x hx with h | h
              · exact Or.inl h
              · exact Or.inr (Or.inl h)
            · exact Or.inr (Or.inr hx)
          · simp only [allEntriesList_cons, allEntriesNode_leaf, entKeys_append,
              List.mem_append]
            exact Or.inl (leafUpsert_key_mem hso)
          · intro j hj
            simp only [allEntriesList_cons, allEntriesNode_leaf, entKeys_append,
              List.mem_append] at hj ⊢
            rcases hj with hj | hj
            · exact Or.inl (leafUpsert_keys_sub hso j hj)
            · exact Or.inr hj
      · have hsorted3 : sortedFromOpt (some k0) ks := by
          refine ⟨hpairks, ?_⟩
          intro a ha x hx
          have : k0 = a := by simpa using ha
          exact this ▸ hk0ks x hx
        have hk0key : ∀ a ∈ (some k0 : Option Int), a ≤ key := by
          intro a ha
          have : k0 = a := by simpa using ha
          exact this ▸ not_lt.mp hk
        obtain ⟨ks2, cs2, hseg, hf2, hsort2, hlen1, hlen2, hmem, hkey, hsub⟩ :=
          ih hftail hsorted3 hk0key
        refine ⟨k0 :: ks2, Node.leaf es :: cs2, ?_, ⟨hc2, hf2⟩, ?_, by simpa using hlen1,
          by simpa using hlen2, ?_, ?_, ?_⟩
        · simp [insertSeg, hk, hseg]
        · refine ⟨?_, ?_⟩
          · refine List.pairwise_cons.mpr ⟨?_, hsort2.1⟩
            intro x hx
            exact hsort2.2 k0 (by simp) x hx
          · intro a ha x hx
            rcases List.mem_cons.mp hx with rfl | hx
            · exact hloks a ha x (by simp)
            · exact lt_trans (hloks a ha k0 (by simp)) (hsort2.2 k0 (by simp) x hx)
        · intro x hx
          simp only [allEntriesList_cons, allEntriesNode_leaf, List.mem_append] at hx ⊢
          rcases hx with hx | hx
          · exact Or.inr (Or.inl hx)
          · rcases hmem x hx with h | h
            · exact Or.inl h
            · exact Or.inr (Or.inr h)
        · simp only [allEntriesList_cons, allEntriesNode_leaf, entKeys_append,
            List.mem_append]
          exact Or.inr hkey
        · intro j hj
          simp only [allEntriesList_cons, allEntriesNode_leaf, entKeys_append,
            List.mem_append] at hj ⊢
          rcases hj with hj | hj
          · exact Or.inl hj
          · exact Or.inr (hsub j hj)

/-! Root-level preservation and reachability. -/

/-- Fullness of an internal node in terms of its separator count. -/
theorem is_full_internal_iff {ks : List Int} {cs : List Node} :
    (Node.internal ks cs).is_full = true ↔ 2 * MIN_DEGREE - 1 ≤ ks.length := by
  simp [Node.is_full, Node.num_keys]

/-- Inserting into a tree whose root is a full internal node always
panics: the fresh root starts with no separators, `split_child` refuses
to split the internal old root, and `keys[0]` is read out of bounds. -/
theorem insert_full_internal_none {t : BPlusTree} {ks : List Int} {cs : List Node}
    {key : Int} {value : String}
    (hroot : t.root = .internal ks cs) (hfull : t.root.is_full = true) :
    t.insert key value = none := by
  have hfull2 : (Node.internal ks cs).is_full = true := by rw [← hroot]; exact hfull
  simp [BPlusTree.insert, growRoot, hroot, hfull2, split_child, insert_non_full,
    routeIdx, split_child_internal]

/-- A successful insert preserves the invariant, stores only the new
pair beyond the old entries, stores the new key, and keeps every old
key. -/
theorem insert_some_inv {t t2 : BPlusTree} {key : Int} {value : String}
    (hinv : TreeInv t) (hins : t.insert key value = some t2) :
    TreeInv t2 ∧
      (∀ x ∈ allEntriesNode t2.root,
        (x.key = key ∧ x.value = value) ∨ x ∈ allEntriesNode t.root) ∧
      key ∈ entKeys (allEntriesNode t2.root) ∧
      (∀ j ∈ entKeys (allEntriesNode t.root), j ∈ entKeys (allEntriesNode t2.root)) := by
  obtain ⟨root, ht⟩ := t
  cases root with
  | leaf es =>
      obtain ⟨hso, hle⟩ := hinv
      by_cases hfull : (Node.leaf es).is_full
      · have hmin2 : 2 ≤ es.length := by
          have := is_full_leaf_iff.mp hfull
          rw [mdeg_full] at this
          omega
        have hc : childOK none none (.leaf es) :=
          ⟨es, rfl, hso, hmin2, hle, fun e _ => ⟨by simp, by simp⟩, by simp⟩
        obtain ⟨med, hmed, happ, hLlen, hRlen, hLok, hRok, -, -⟩ :=
          split_full_childOK hc hfull
        have hgt : es.length > MIN_DEGREE - 1 := by
          have := is_full_leaf_iff.mp hfull
          rw [mdeg_full] at this
          rw [mdeg_sub_one]
          omega
        have hmed2 : es.get? (MIN_DEGREE - 1) = some med := by
          rw [List.get?_eq_getElem?]
          exact hmed
        have hg : growRoot ⟨.leaf es, ht⟩ =
            some ⟨.internal [med.key]
              [.leaf (es.take (MIN_DEGREE - 1)), .leaf (es.drop (MIN_DEGREE - 1))],
              ht + 1⟩ := by
          simp only [growRoot, hfull, if_true, split_child, List.get?_cons_zero,
            if_pos hgt, hmed2, List.length_nil, if_pos (Nat.zero_le 0), vecInsert_zero,
            List.set_cons_zero, vecInsert_succ_cons]
        have hcs : allEntriesList
            [Node.leaf (es.take (MIN_DEGREE - 1)), Node.leaf (es.drop (MIN_DEGREE - 1))] =
            es := by
          simp only [allEntriesList_cons, allEntriesNode_leaf, allEntriesList_nil,
            List.append_nil]
          exact happ
        have hfen : fenced none [med.key]
            [Node.leaf (es.take (MIN_DEGREE - 1)), Node.leaf (es.drop (MIN_DEGREE - 1))] :=
          ⟨hLok, hRok⟩
        obtain ⟨ks2, cs2, hseg, hf2, hsort2, hl1, hl2, hmem, hkey, hsub⟩ :=
          seg_main key value hfen ⟨List.pairwise_singleton _ _, by simp⟩ (by simp)
        have hbr := insert_non_full_eq_seg key value [med.key]
          [Node.leaf (es.take (MIN_DEGREE - 1)), Node.leaf (es.drop (MIN_DEGREE - 1))]
          ⟨⟨_, rfl⟩, ⟨_, rfl⟩, trivial⟩ rfl
        rw [BPlusTree.insert, hg] at hins
        simp only [hbr, hseg, Option.map_some'] at hins
        have ht2 : t2 = ⟨.internal ks2 cs2, ht + 1⟩ := by
          exact (Option.some.inj hins).symm
        subst ht2
        refine ⟨?_, ?_, ?_, ?_⟩
        · refine ⟨?_, ?_, hsort2.1, hf2⟩
          · have : 1 ≤ ks2.length := by simpa using hl1
            exact List.ne_nil_of_length_pos (by omega)
          · rw [mdeg_full]
            simp only [List.length_singleton] at hl2
            omega
        · intro x hx
          rcases hmem x hx with h | h
          · exact Or.inl h
          · exact Or.inr (hcs ▸ h)
        · exact hkey
        · intro j hj
          exact hsub j (by rw [hcs]; exact hj)
      · have hg : growRoot ⟨.leaf es, ht⟩ = some ⟨.leaf es, ht⟩ := by
          simp [growRoot, hfull]
        rw [BPlusTree.insert, hg] at hins
        simp only [insert_non_full, Option.map_some'] at hins
        have ht2 : t2 = ⟨.leaf (leafUpsert es key value), ht⟩ :=
          (Option.some.inj hins).symm
        subst ht2
        have hlen4 : es.length ≤ 2 * MIN_DEGREE - 2 := by
          have : ¬ (2 * MIN_DEGREE - 1 ≤ es.length) := fun hh =>
            hfull (is_full_leaf_iff.mpr hh)
          rw [mdeg_full] at this
          rw [mdeg_m2]
          omega
        refine ⟨⟨?_, ?_⟩, ?_, ?_, ?_⟩
        · rw [leafUpsert_eq_R hso]
          exact leafUpsertR_sorted hso
        · rw [leafUpsert_eq_R hso]
          have := (leafUpsertR_length key value es).2
          rw [mdeg_full]
          rw [mdeg_m2] at hlen4
          omega
        · intro x hx
          exact leafUpsert_mem hso x hx
        · exact leafUpsert_key_mem hso
        · intro j hj
          exact leafUpsert_keys_sub hso j hj
  | internal ks cs =>
      obtain ⟨hne, hlen5, hpw, hfen⟩ := hinv
      by_cases hfull : (Node.internal ks cs).is_full
      · exact absurd hins (by
          rw [insert_full_internal_none rfl hfull]
          simp)
      · have hg : growRoot ⟨.internal ks cs, ht⟩ = some ⟨.internal ks cs, ht⟩ := by
          simp [growRoot, hfull]
        rw [BPlusTree.insert, hg] at hins
        obtain ⟨ks2, cs2, hseg, hf2, hsort2, hl1, hl2, hmem, hkey, hsub⟩ :=
          seg_main key value hfen ⟨hpw, by simp⟩ (by simp)
        have hbr := insert_non_full_eq_seg key value ks cs
          (fenced_leaves hfen) (fenced_length hfen)
        simp only [hbr, hseg, Option.map_some'] at hins
        have ht2 : t2 = ⟨.internal ks2 cs2, ht⟩ := (Option.some.inj hins).symm
        subst ht2
        have hks4 : ks.length ≤ 4 := by
          have : ¬ (2 * MIN_DEGREE - 1 ≤ ks.length) := fun hh =>
            hfull (is_full_internal_iff.mpr hh)
          rw [mdeg_full] at this
          omega
        refine ⟨⟨?_, ?_, hsort2.1, hf2⟩, ?_, hkey, hsub⟩
        · have h1 : 1 ≤ ks.length := List.length_pos.mpr hne
          exact List.ne_nil_of_length_pos (by omega)
        · rw [mdeg_full]
          omega
        · intro x hx
          exact hmem x hx

/-- One successful insert extends the history invariant. -/
theorem good_insert {seen : List (Int × String)} {t t2 : BPlusTree} {key : Int}
    {value : String} (hg : Good seen t) (hins : t.insert key value = some t2) :
    Good (seen ++ [(key, value)]) t2 := by
  obtain ⟨hinv, hprov, hkeys⟩ := hg
  obtain ⟨hinv2, hmem, hkey, hsub⟩ := insert_some_inv hinv hins
  refine ⟨hinv2, ?_, ?_⟩
  · intro x hx
    rcases hmem x hx with ⟨hk, hv⟩ | hx2
    · exact List.mem_append_right _ (by simp [hk, hv])
    · exact List.mem_append_left _ (hprov x hx2)
  · intro p hp
    rcases List.mem_append.mp hp with hp | hp
    · exact hsub p.1 (hkeys p hp)
    · have hpe : p = (key, value) := by simpa using hp
      rw [hpe]
      exact hkey

/-- Folding a list of inserts preserves the history invariant. -/
theorem insertAllFrom_good :
    ∀ {ops : List (Int × String)} {seen : List (Int × String)} {t tf : BPlusTree},
      Good seen t → insertAllFrom t ops = some tf → Good (seen ++ ops) tf := by
  intro ops
  induction ops with
  | nil =>
      intro seen t tf hg h
      have : t = tf := by simpa [insertAllFrom] using h
      subst this
      simpa using hg
  | cons p ps ih =>
      intro seen t tf hg h
      simp only [insertAllFrom] at h
      cases hi : t.insert p.1 p.2 with
      | none => rw [hi] at h; exact absurd h (by simp)
      | some t2 =>
          rw [hi] at h
          have hg2 : Good (seen ++ [p]) t2 := good_insert hg hi
          have := ih hg2 h
          simpa using this

/-- Every tree reachable by a successfully completed insert sequence
satisfies the structural invariant, owes each stored entry to one of the
inserts, and stores every inserted key. -/
theorem reach_good {ops : List (Int × String)} {t : BPlusTree}
    (h : insertAll ops = some t) : Good ops t := by
  have hg0 : Good [] BPlusTree.new := by
    refine ⟨⟨?_, ?_⟩, ?_, ?_⟩
    · simp [leafSorted, entKeys]
    · simp [BPlusTree.new, Node.new_leaf]
    · intro x hx
      simp [BPlusTree.new, Node.new_leaf, allEntriesNode] at hx
    · intro p hp
      simp at hp
  have := insertAllFrom_good hg0 h
  simpa using this

/-! Derived structural facts about reachable trees. -/

/-- `allEntriesList` distributes over append. -/
theorem allEntriesList_append :
    ∀ {l1 l2 : List Node}, allEntriesList (l1 ++ l2) = allEntriesList l1 ++ allEntriesList l2 := by
  intro l1
  induction l1 with
  | nil => intro l2; simp [allEntriesList_nil]
  | cons c cs ih => intro l2; simp [allEntriesList_cons, ih, List.append_assoc]

/-- Fenced children satisfy the capacity predicates. -/
theorem fenced_capped {ks : List Int} :
    ∀ {lo : Option Int} {cs : List Node}, fenced lo ks cs →
      allNodesCappedList cs ∧ properDescMinList cs := by
  induction ks with
  | nil =>
      intro lo cs h
      obtain ⟨c, rfl, hc⟩ := fenced_nil_inv h
      obtain ⟨es, rfl, -, hmin, hmax, -, -⟩ := hc
      constructor
      · exact ⟨hmax, trivial⟩
      · exact ⟨⟨by simpa [Node.num_keys, mdeg_sub_one] using hmin, trivial⟩, trivial⟩
  | cons k ks ih =>
      intro lo cs h
      obtain ⟨c, cs2, rfl, hc, h2⟩ := fenced_cons_inv h
      obtain ⟨es, rfl, -, hmin, hmax, -, -⟩ := hc
      obtain ⟨ih1, ih2⟩ := ih h2
      constructor
      · exact ⟨hmax, ih1⟩
      · exact ⟨⟨by simpa [Node.num_keys, mdeg_sub_one] using hmin, trivial⟩, ih2⟩

/-- Fenced children satisfy the arity predicate (they are leaves). -/
theorem fenced_arity {ks : List Int} :
    ∀ {lo : Option Int} {cs : List Node}, fenced lo ks cs → arityOKList cs := by
  induction ks with
  | nil =>
      intro lo cs h
      obtain ⟨c, rfl, hc⟩ := fenced_nil_inv h
      obtain ⟨es, rfl, -⟩ := hc
      exact ⟨trivial, trivial⟩
  | cons k ks ih =>
      intro lo cs h
      obtain ⟨c, cs2, rfl, hc, h2⟩ := fenced_cons_inv h
      obtain ⟨es, rfl, -⟩ := hc
      exact ⟨trivial, ih h2⟩

/-- The keys stored under a fenced segment are weakly ascending and
bounded below by the incoming bound. -/
theorem fenced_sorted_keys {ks : List Int} :
    ∀ {lo : Option Int} {cs : List Node}, fenced lo ks cs →
      (entKeys (allEntriesList cs)).Pairwise (· ≤ ·) ∧
        (∀ a ∈ lo, ∀ j ∈ entKeys (allEntriesList cs), a ≤ j) := by
  induction ks with
  | nil =>
      intro lo cs h
      obtain ⟨c, rfl, hc⟩ := fenced_nil_inv h
      obtain ⟨es, rfl, hso, -, -, hbnd, -⟩ := hc
      constructor
      · simp only [allEntriesList_cons, allEntriesNode_leaf, allEntriesList_nil,
          List.append_nil]
        exact hso.imp le_of_lt
      · intro a ha j hj
        simp only [allEntriesList_cons, allEntriesNode_leaf, allEntriesList_nil,
          List.append_nil] at hj
        obtain ⟨e, he, rfl⟩ := List.mem_map.mp hj
        exact (hbnd e he).1 a ha
  | cons k ks ih =>
      intro lo cs h
      obtain ⟨c, cs2, rfl, hc, h2⟩ := fenced_cons_inv h
      obtain ⟨es, rfl, hso, hmin, -, hbnd, -⟩ := hc
      obtain ⟨ihs, ihb⟩ := ih h2
      have hup : ∀ j ∈ entKeys es, j ≤ k := by
        intro j hj
        obtain ⟨e, he, rfl⟩ := List.mem_map.mp hj
        exact (hbnd e he).2 k (by simp)
      have hlow : ∀ j ∈ entKeys (allEntriesList cs2), k ≤ j := by
        intro j hj
        exact ihb k (by simp) j hj
      constructor
      · simp only [allEntriesList_cons, allEntriesNode_leaf, entKeys_append]
        refine List.pairwise_append.mpr ⟨hso.imp le_of_lt, ihs, ?_⟩
        intro x hx y hy
        exact le_trans (hup x hx) (hlow y hy)
      · intro a ha j hj
        simp only [allEntriesList_cons, allEntriesNode_leaf, entKeys_append,
          List.mem_append] at hj
        rcases hj with hj | hj
        · obtain ⟨e, he, rfl⟩ := List.mem_map.mp hj
          exact (hbnd e he).1 a ha
        · have hesne : es ≠ [] := by
            intro hh
            rw [hh] at hmin
            simp at hmin
          obtain ⟨e, he⟩ := List.exists_mem_of_ne_nil es hesne
          have hak : a ≤ k := le_trans ((hbnd e he).1 a ha) ((hbnd e he).2 k (by simp))
          exact le_trans hak (ihb k (by simp) j hj)

/-- On reachable trees, `all_keys` is exactly the in-order key list. -/
theorem collectKeysList_eq :
    ∀ {cs : List Node}, allLeaves cs → collectKeysList cs = entKeys (allEntriesList cs) := by
  intro cs
  induction cs with
  | nil => intro _; rfl
  | cons c cs ih =>
      intro h
      obtain ⟨⟨es, rfl⟩, h2⟩ := h
      simp only [collectKeysList, collect_keys, allEntriesList_cons, allEntriesNode_leaf,
        entKeys_append, ih h2]
      rfl

/-- `all_keys` of an invariant tree is the in-order key list. -/
theorem all_keys_eq {t : BPlusTree} (hinv : TreeInv t) :
    t.all_keys = entKeys (allEntriesNode t.root) := by
  obtain ⟨root, ht⟩ := t
  cases root with
  | leaf es => rfl
  | internal ks cs =>
      obtain ⟨-, -, -, hfen⟩ := hinv
      show collect_keys (.internal ks cs) = entKeys (allEntriesNode (.internal ks cs))
      simp only [collect_keys, allEntriesNode]
      exact collectKeysList_eq (fenced_leaves hfen)

/-- The in-order keys of an invariant tree are weakly ascending. -/
theorem inorder_keys_sorted {t : BPlusTree} (hinv : TreeInv t) :
    (entKeys (allEntriesNode t.root)).Pairwise (· ≤ ·) := by
  obtain ⟨root, ht⟩ := t
  cases root with
  | leaf es => exact hinv.1.imp le_of_lt
  | internal ks cs =>
      obtain ⟨-, -, -, hfen⟩ := hinv
      exact (fenced_sorted_keys hfen).1

/-! Search on reachable trees. -/

/-- Soundness of the child walk: a found value comes from a stored entry
with the searched key. -/
theorem searchChildAt_sound {k : Int} :
    ∀ {cs : List Node} {i : Nat} {v : String}, allLeaves cs →
      searchChildAt k i cs = some (some v) →
      ∃ x, x ∈ allEntriesList cs ∧ x.key = k ∧ x.value = v := by
  intro cs
  induction cs with
  | nil => intro i v _ h; simp [searchChildAt] at h
  | cons c cs ih =>
      intro i v hl h
      obtain ⟨⟨es, rfl⟩, hl2⟩ := hl
      cases i with
      | zero =>
          simp only [searchChildAt, search_recursive] at h
          obtain ⟨x, hx, hxv⟩ := Option.map_eq_some'.mp (Option.some.inj h)
          obtain ⟨hmem, hkey⟩ := find_entry_eq hx
          exact ⟨x, by
            simp only [allEntriesList_cons, allEntriesNode_leaf, List.mem_append]
            exact Or.inl hmem, hkey, hxv⟩
      | succ n =>
          have h2 : searchChildAt k n cs = some (some v) := h
          obtain ⟨x, hx, hk, hv⟩ := ih hl2 h2
          exact ⟨x, by
            simp only [allEntriesList_cons, allEntriesNode_leaf, List.mem_append]
            exact Or.inr hx, hk, hv⟩

/-- Soundness of search on an invariant tree. -/
theorem search_sound {t : BPlusTree} {k : Int} {v : String} (hinv : TreeInv t)
    (h : t.search k = some (some v)) :
    ∃ x, x ∈ allEntriesNode t.root ∧ x.key = k ∧ x.value = v := by
  obtain ⟨root, ht⟩ := t
  cases root with
  | leaf es =>
      simp only [BPlusTree.search, search_recursive] at h
      obtain ⟨x, hx, hxv⟩ := Option.map_eq_some'.mp (Option.some.inj h)
      obtain ⟨hmem, hkey⟩ := find_entry_eq hx
      exact ⟨x, hmem, hkey, hxv⟩
  | internal ks cs =>
      obtain ⟨-, -, -, hfen⟩ := hinv
      exact searchChildAt_sound (fenced_leaves hfen) h

/-- The first child of a fenced segment exists and is a leaf bounded by
the incoming bound. -/
theorem fenced_first {ks : List Int} {lo : Option Int} {cs : List Node}
    (h : fenced lo ks cs) :
    ∃ c cs2 hi, cs = c :: cs2 ∧ childOK lo hi c := by
  cases ks with
  | nil =>
      obtain ⟨c, rfl, hc⟩ := fenced_nil_inv h
      exact ⟨c, [], none, rfl, hc⟩
  | cons k ks =>
      obtain ⟨c, cs2, rfl, hc, -⟩ := fenced_cons_inv h
      exact ⟨c, cs2, some k, rfl, hc⟩

/-- Completeness of the routed search over a fenced segment: every
stored key is found. -/
theorem seg_search {k : Int} :
    ∀ {ks : List Int} {lo : Option Int} {cs : List Node}, fenced lo ks cs →
      k ∈ entKeys (allEntriesList cs) →
      ∃ v, searchChildAt k (routeIdx k ks) cs = some (some v) := by
  intro ks
  induction ks with
  | nil =>
      intro lo cs hf hk
      obtain ⟨c, rfl, hc⟩ := fenced_nil_inv hf
      obtain ⟨es, rfl, -, -, -, -, -⟩ := hc
      simp only [allEntriesList_cons, allEntriesNode_leaf, allEntriesList_nil,
        List.append_nil] at hk
      obtain ⟨x, hx⟩ := find_entry_exists hk
      exact ⟨x.value, by simp [routeIdx, searchChildAt, search_recursive, hx]⟩
  | cons k0 ks ih =>
      intro lo cs hf hk
      obtain ⟨c, cs2, rfl, hc, h2⟩ := fenced_cons_inv hf
      obtain ⟨es, rfl, -, -, -, hbnd, -⟩ := hc
      simp only [allEntriesList_cons, allEntriesNode_leaf, entKeys_append,
        List.mem_append] at hk
      by_cases hlt : k < k0
      · have hkes : k ∈ entKeys es := by
          rcases hk with hk | hk
          · exact hk
          · exfalso
            have := (fenced_sorted_keys h2).2 k0 (by simp) k hk
            omega
        obtain ⟨x, hx⟩ := find_entry_exists hkes
        refine ⟨x.value, ?_⟩
        have hr : routeIdx k (k0 :: ks) = 0 := by simp [routeIdx, hlt]
        rw [hr]
        simp [searchChildAt, search_recursive, hx]
      · have hktail : k ∈ entKeys (allEntriesList cs2) := by
          rcases hk with hk | hk
          · obtain ⟨e, he, rfl⟩ := List.mem_map.mp hk
            have hle : e.key ≤ k0 := (hbnd e he).2 k0 (by simp)
            have hge : k0 ≤ e.key := not_lt.mp hlt
            have hek : e.key = k0 := le_antisymm hle hge
            obtain ⟨c2, cs3, hi, rfl, hc2⟩ := fenced_first h2
            obtain ⟨es2, rfl, -, -, -, -, hhd⟩ := hc2
            have hhead : (entKeys es2).head? = some k0 := hhd k0 (by simp)
            have hk0mem : k0 ∈ entKeys es2 := List.mem_of_mem_head? (by rw [hhead]; rfl)
            rw [hek]
            simp only [allEntriesList_cons, allEntriesNode_leaf, entKeys_append,
              List.mem_append]
            exact Or.inl hk0mem
          · exact hk
        have hr : routeIdx k (k0 :: ks) = routeIdx k ks + 1 := by simp [routeIdx, hlt]
        rw [hr]
        exact ih h2 hktail

/-- Completeness of search on an invariant tree. -/
theorem search_complete {t : BPlusTree} {k : Int} (hinv : TreeInv t)
    (h : k ∈ entKeys (allEntriesNode t.root)) :
    ∃ v, t.search k = some (some v) := by
  obtain ⟨root, ht⟩ := t
  cases root with
  | leaf es =>
      obtain ⟨x, hx⟩ := find_entry_exists (show k ∈ entKeys es from h)
      exact ⟨x.value, by simp [BPlusTree.search, search_recursive, hx]⟩
  | internal ks cs =>
      obtain ⟨-, -, -, hfen⟩ := hinv
      exact seg_search hfen h

/-! Range queries on reachable trees. -/

/-- Range query on a leaf is exactly the closed-interval filter. -/
theorem range_leaf {start stop : Int} {es : List Entry} :
    range_query_recursive start stop (.leaf es) = some (rangePairs es start stop) := by
  simp [range_query_recursive, rangePairs]

/-- `rangePairs` distributes over append. -/
theorem rangePairs_append {l1 l2 : List Entry} {start stop : Int} :
    rangePairs (l1 ++ l2) start stop = rangePairs l1 start stop ++ rangePairs l2 start stop := by
  simp [rangePairs]

/-- Entries entirely below the interval contribute nothing. -/
theorem rangePairs_nil_lo {es : List Entry} {start stop : Int}
    (h : ∀ x ∈ es, x.key < start) : rangePairs es start stop = [] := by
  unfold rangePairs
  rw [List.filter_eq_nil_iff.mpr]
  · rfl
  · intro a ha
    simp only [Bool.and_eq_true, decide_eq_true_eq, not_and]
    intro h1
    exact absurd h1 (not_le.mpr (h a ha))

/-- Entries entirely above the interval contribute nothing. -/
theorem rangePairs_nil_hi {es : List Entry} {start stop : Int}
    (h : ∀ x ∈ es, stop < x.key) : rangePairs es start stop = [] := by
  unfold rangePairs
  rw [List.filter_eq_nil_iff.mpr]
  · rfl
  · intro a ha
    simp only [Bool.and_eq_true, decide_eq_true_eq, not_and]
    intro _
    exact not_le.mpr (h a ha)

/-- The separator loop of the range query collects exactly the
qualifying entries of all children but the last. -/
theorem rangeOverKeys_fenced {start stop : Int} :
    ∀ {ks : List Int} {lo : Option Int} {cs : List Node}, fenced lo ks cs →
      rangeOverKeys start stop ks cs =
        some (rangePairs (allEntriesList cs.dropLast) start stop) := by
  intro ks
  induction ks with
  | nil =>
      intro lo cs h
      obtain ⟨c, rfl, -⟩ := fenced_nil_inv h
      simp [rangeOverKeys, allEntriesList_nil, rangePairs]
  | cons k0 ks ih =>
      intro lo cs h
      obtain ⟨c, cs2, rfl, hc, h2⟩ := fenced_cons_inv h
      obtain ⟨es, rfl, -, -, -, hbnd, -⟩ := hc
      have hcs2 : cs2 ≠ [] := by
        have := fenced_length h2
        exact List.ne_nil_of_length_pos (by omega)
      rw [List.dropLast_cons_of_ne_nil hcs2]
      by_cases hs : start ≤ k0
      · simp only [rangeOverKeys, if_pos hs, range_leaf, ih h2]
        simp only [allEntriesList_cons, allEntriesNode_leaf, rangePairs_append]
      · simp only [rangeOverKeys, if_neg hs, ih h2]
        have hnil : rangePairs es start stop = [] := by
          apply rangePairs_nil_lo
          intro x hx
          exact lt_of_le_of_lt ((hbnd x hx).2 k0 (by simp)) (not_le.mp hs)
        simp only [allEntriesList_cons, allEntriesNode_leaf, rangePairs_append, hnil,
          List.nil_append]

/-- The walk to the last child runs the range query there. -/
theorem rangeLastChild_eq {start stop : Int} :
    ∀ (cs : List Node) (c : Node),
      rangeLastChild start stop c cs =
        range_query_recursive start stop ((c :: cs).getLast (List.cons_ne_nil c cs)) := by
  intro cs
  induction cs with
  | nil => intro c; simp [rangeLastChild]
  | cons c2 cs ih =>
      intro c
      have h1 : rangeLastChild start stop c (c2 :: cs) = rangeLastChild start stop c2 cs := by
        simp [rangeLastChild]
      rw [h1, ih c2]
      congr 1

/-- The last child of a fenced segment is a sorted leaf bounded below by
the last separator (or the incoming bound when there is none). -/
theorem fenced_last {ks : List Int} :
    ∀ {lo : Option Int} {cs : List Node}, fenced lo ks cs →
      ∃ es, cs.getLast? = some (.leaf es) ∧ leafSorted es ∧
        (∀ m ∈ optLast lo ks, ∀ e ∈ es, m ≤ e.key) := by
  induction ks with
  | nil =>
      intro lo cs h
      obtain ⟨c, rfl, hc⟩ := fenced_nil_inv h
      obtain ⟨es, rfl, hso, -, -, hbnd, -⟩ := hc
      refine ⟨es, rfl, hso, ?_⟩
      intro m hm e he
      exact (hbnd e he).1 m (by simpa [optLast] using hm)
  | cons k0 ks ih =>
      intro lo cs h
      obtain ⟨c, cs2, rfl, -, h2⟩ := fenced_cons_inv h
      obtain ⟨es, hlast, hso, hbnd⟩ := ih h2
      have hcs2 : cs2 ≠ [] := by
        have := fenced_length h2
        exact List.ne_nil_of_length_pos (by omega)
      refine ⟨es, ?_, hso, ?_⟩
      · rw [← hlast]
        cases cs2 with
        | nil => exact absurd rfl hcs2
        | cons a b => exact List.getLast?_cons_cons
      · intro m hm e he
        apply hbnd m _ e he
        cases ks with
        | nil => simpa [optLast] using hm
        | cons k1 ks2 => simpa [optLast, List.getLast?_cons_cons] using hm

/-- Exactness of the range query on an invariant tree, provided `stop`
differs from the root's largest separator. -/
theorem range_exact {t : BPlusTree} {start stop : Int} (hinv : TreeInv t)
    (hstop : ∀ m, rootLastSep t = some m → stop ≠ m) :
    t.range_query start stop = some (rangePairs (allEntriesNode t.root) start stop) := by
  obtain ⟨root, ht⟩ := t
  cases root with
  | leaf es => exact range_leaf
  | internal ks cs =>
      obtain ⟨hne, -, -, hfen⟩ := hinv
      obtain ⟨m, hm⟩ : ∃ m, ks.getLast? = some m :=
        ⟨ks.getLast hne, List.getLast?_eq_getLast ks hne⟩
      have hstop2 : stop ≠ m := hstop m (by simp [rootLastSep, hm])
      obtain ⟨les, hlast, -, hlbnd⟩ := fenced_last hfen
      have hcs_ne : cs ≠ [] := by
        have := fenced_length hfen
        exact List.ne_nil_of_length_pos (by omega)
      obtain ⟨c0, rest, rfl⟩ : ∃ c0 rest, cs = c0 :: rest := by
        cases cs with
        | nil => exact absurd rfl hcs_ne
        | cons a b => exact ⟨a, b, rfl⟩
      have hlb : ∀ e ∈ les, m ≤ e.key := by
        intro e he
        refine hlbnd m ?_ e he
        simp [optLast, hm]
      have hgl : (c0 :: rest).getLast (List.cons_ne_nil c0 rest) = .leaf les := by
        have := List.getLast?_eq_getLast (c0 :: rest) (List.cons_ne_nil c0 rest)
        rw [hlast] at this
        exact (Option.some.inj this).symm
      have hdecomp : allEntriesList ((c0 :: rest).dropLast) ++ les =
          allEntriesList (c0 :: rest) := by
        conv_rhs => rw [← List.dropLast_append_getLast (List.cons_ne_nil c0 rest)]
        rw [allEntriesList_append, hgl]
        simp [allEntriesList_cons, allEntriesNode_leaf, allEntriesList_nil]
      show range_query_recursive start stop (.internal ks (c0 :: rest)) = _
      simp only [range_query_recursive, rangeOverKeys_fenced hfen, hm, Option.getD_some]
      by_cases hgt : stop > m
      · rw [if_pos hgt, rangeLastChild_eq, hgl, range_leaf]
        show some (rangePairs (allEntriesList ((c0 :: rest).dropLast)) start stop ++
            rangePairs les start stop) = _
        rw [← rangePairs_append, hdecomp]
        rfl
      · rw [if_neg hgt]
        have hstoplt : stop < m := lt_of_le_of_ne (not_lt.mp hgt) hstop2
        have hnil : rangePairs les start stop = [] :=
          rangePairs_nil_hi (fun x hx => lt_of_lt_of_le hstoplt (hlb x hx))
        show some (rangePairs (allEntriesList ((c0 :: rest).dropLast)) start stop) = _
        rw [show rangePairs (allEntriesNode (Node.internal ks (c0 :: rest))) start stop =
            rangePairs (allEntriesList ((c0 :: rest).dropLast)) start stop ++
              rangePairs les start stop from by
          rw [← rangePairs_append, hdecomp]
          rfl]
        rw [hnil, List.append_nil]

/-! Remaining claim theorems and their witnesses. -/

/-- C2 (amended): on every reachable tree, and whenever `stop` is not
equal to the root's largest separator key, `range_query` returns exactly
the stored entries with keys in the closed interval, in (weakly)
ascending key order. -/
theorem c2_range_exact_unless_last_separator (ops : List (Int × String)) (t : BPlusTree)
    (start stop : Int) (h : insertAll ops = some t)
    (hm : ∀ m, rootLastSep t = some m → stop ≠ m) :
    t.range_query start stop = some (rangePairs (allEntriesNode t.root) start stop) ∧
    ((rangePairs (allEntriesNode t.root) start stop).map Prod.fst).Pairwise (· ≤ ·) := by
  have hinv := (reach_good h).1
  refine ⟨range_exact hinv hm, ?_⟩
  have hsorted := inorder_keys_sorted hinv
  have hkeys : (rangePairs (allEntriesNode t.root) start stop).map Prod.fst =
      entKeys ((allEntriesNode t.root).filter fun e => start ≤ e.key && e.key ≤ stop) := by
    simp [rangePairs, entKeys, List.map_map]
  rw [hkeys]
  exact List.Pairwise.sublist (List.Sublist.map _ (List.filter_sublist _)) hsorted

/-- Witness for the amended range claim at a concrete reachable tree. -/
theorem c2_range_exact_witness :
    (BPlusTree.mk (.leaf [⟨1, "a"⟩]) 1).range_query 0 5 =
      some (rangePairs (allEntriesNode (.leaf [⟨1, "a"⟩])) 0 5) ∧
    ((rangePairs (allEntriesNode (.leaf [⟨1, "a"⟩])) 0 5).map Prod.fst).Pairwise (· ≤ ·) :=
  c2_range_exact_unless_last_separator [(1, "a")] ⟨.leaf [⟨1, "a"⟩], 1⟩ 0 5 rfl
    (fun m hm => by simp [rootLastSep] at hm)

/-- The routed child walk never panics on a fenced segment: the routed
index is always in range and lands on a leaf. -/
theorem seg_search_total {k : Int} :
    ∀ {ks : List Int} {lo : Option Int} {cs : List Node}, fenced lo ks cs →
      ∃ r, searchChildAt k (routeIdx k ks) cs = some r := by
  intro ks
  induction ks with
  | nil =>
      intro lo cs hf
      obtain ⟨c, rfl, hc⟩ := fenced_nil_inv hf
      obtain ⟨es, rfl, -⟩ := hc
      exact ⟨(es.find? fun e => e.key == k).map Entry.value,
        by simp [routeIdx, searchChildAt, search_recursive]⟩
  | cons k0 ks ih =>
      intro lo cs hf
      obtain ⟨c, cs2, rfl, hc, h2⟩ := fenced_cons_inv hf
      obtain ⟨es, rfl, -⟩ := hc
      by_cases hlt : k < k0
      · have hr : routeIdx k (k0 :: ks) = 0 := by simp [routeIdx, hlt]
        rw [hr]
        exact ⟨(es.find? fun e => e.key == k).map Entry.value,
          by simp [searchChildAt, search_recursive]⟩
      · have hr : routeIdx k (k0 :: ks) = routeIdx k ks + 1 := by simp [routeIdx, hlt]
        rw [hr]
        exact ih h2

/-- Search on an invariant tree always returns normally (it never
panics), with either a value or a not-found answer. -/
theorem search_total {t : BPlusTree} {k : Int} (hinv : TreeInv t) :
    ∃ r, t.search k = some r := by
  obtain ⟨root, ht⟩ := t
  cases root with
  | leaf es =>
      exact ⟨(es.find? fun e => e.key == k).map Entry.value,
        by simp [BPlusTree.search, search_recursive]⟩
  | internal ks cs =>
      obtain ⟨-, -, -, hfen⟩ := hinv
      exact seg_search_total hfen

/-- C3 (amended): after a successfully completed insert sequence, every
value search returns for a key was passed to an insert call with that
key (no phantom results), search finds a key exactly when that key was
inserted, and it answers not-found exactly for the keys never
inserted. -/
theorem c3_search_finds_inserted_keys (ops : List (Int × String)) (t : BPlusTree) (k : Int)
    (h : insertAll ops = some t) :
    (∀ v, t.search k = some (some v) → (k, v) ∈ ops) ∧
    ((∃ v, t.search k = some (some v)) ↔ k ∈ ops.map Prod.fst) ∧
    (t.search k = some none ↔ k ∉ ops.map Prod.fst) := by
  obtain ⟨hinv, hprov, hkeys⟩ := reach_good h
  have hsound : ∀ v, t.search k = some (some v) → (k, v) ∈ ops := by
    intro v hv
    obtain ⟨x, hx, hxk, hxv⟩ := search_sound hinv hv
    have hmem := hprov x hx
    rw [hxk, hxv] at hmem
    exact hmem
  have hiff : (∃ v, t.search k = some (some v)) ↔ k ∈ ops.map Prod.fst := by
    constructor
    · rintro ⟨v, hv⟩
      exact List.mem_map.mpr ⟨(k, v), hsound v hv, rfl⟩
    · intro hk
      obtain ⟨p, hp, hpk⟩ := List.mem_map.mp hk
      have hkt : k ∈ entKeys (allEntriesNode t.root) := hpk ▸ hkeys p hp
      exact search_complete hinv hkt
  refine ⟨hsound, hiff, ?_, ?_⟩
  · intro hnone hk
    obtain ⟨v, hv⟩ := hiff.mpr hk
    rw [hnone] at hv
    exact Option.noConfusion (Option.some.inj hv)
  · intro hk
    obtain ⟨r, hr⟩ := search_total hinv
    cases r with
    | none => exact hr
    | some v => exact absurd (hiff.mp ⟨v, hr⟩) hk

/-- Witness for the amended search claim at a concrete reachable tree,
with the value quantifier instantiated at the stored value. -/
theorem c3_search_witness :
    ((BPlusTree.mk (.leaf [⟨1, "a"⟩]) 1).search 1 = some (some "a") →
        ((1 : Int), "a") ∈ [((1 : Int), "a")]) ∧
    ((∃ v, (BPlusTree.mk (.leaf [⟨1, "a"⟩]) 1).search 1 = some (some v)) ↔
        (1 : Int) ∈ [((1 : Int), "a")].map Prod.fst) ∧
    ((BPlusTree.mk (.leaf [⟨1, "a"⟩]) 1).search 1 = some none ↔
        (1 : Int) ∉ [((1 : Int), "a")].map Prod.fst) :=
  ⟨(c3_search_finds_inserted_keys [(1, "a")] ⟨.leaf [⟨1, "a"⟩], 1⟩ 1 rfl).1 "a",
   (c3_search_finds_inserted_keys [(1, "a")] ⟨.leaf [⟨1, "a"⟩], 1⟩ 1 rfl).2.1,
   (c3_search_finds_inserted_keys [(1, "a")] ⟨.leaf [⟨1, "a"⟩], 1⟩ 1 rfl).2.2⟩

/-- C5 (amended): splitting a full leaf child of `2 * MIN_DEGREE - 1`
entries promotes the key of the entry at index `MIN_DEGREE - 1` and
produces a left sibling of exactly `MIN_DEGREE - 1` entries and a right
sibling of exactly `MIN_DEGREE` entries (the median entry staying first
in the right sibling); both sibling sizes are strictly below the full
threshold. -/
theorem c5_split_shape (ks : List Int) (cs : List Node) (i : Nat) (es : List Entry)
    (hget : cs.get? i = some (.leaf es)) (hlen : es.length = 2 * MIN_DEGREE - 1)
    (hle : i ≤ ks.length) :
    ∃ med, es.get? (MIN_DEGREE - 1) = some med ∧
      split_child (.internal ks cs) i =
        some (.internal (vecInsert med.key i ks)
          (vecInsert (.leaf (es.drop (MIN_DEGREE - 1))) (i + 1)
            (cs.set i (.leaf (es.take (MIN_DEGREE - 1)))))) ∧
      (es.take (MIN_DEGREE - 1)).length = MIN_DEGREE - 1 ∧
      (es.drop (MIN_DEGREE - 1)).length = MIN_DEGREE ∧
      MIN_DEGREE - 1 < 2 * MIN_DEGREE - 1 ∧ MIN_DEGREE < 2 * MIN_DEGREE - 1 := by
  have hgt : es.length > MIN_DEGREE - 1 := by
    rw [hlen, mdeg_full, mdeg_sub_one]
    omega
  obtain ⟨med, hmed⟩ : ∃ med, es.get? (MIN_DEGREE - 1) = some med :=
    ⟨_, List.get?_eq_get hgt⟩
  refine ⟨med, hmed, ?_, ?_, ?_, by decide, by decide⟩
  · simp only [split_child, hget, if_pos hgt, hmed, if_pos hle]
  · rw [List.length_take, hlen, mdeg_full, mdeg_sub_one]
    decide
  · rw [List.length_drop, hlen, mdeg_full, mdeg_sub_one]
    decide

/-- Witness for the amended split claim on a concrete full leaf. -/
theorem c5_split_shape_witness :
    ∃ med, fullLeaf5.get? (MIN_DEGREE - 1) = some med ∧
      split_child (.internal [] [.leaf fullLeaf5]) 0 =
        some (.internal (vecInsert med.key 0 [])
          (vecInsert (.leaf (fullLeaf5.drop (MIN_DEGREE - 1))) (0 + 1)
            ([Node.leaf fullLeaf5].set 0 (.leaf (fullLeaf5.take (MIN_DEGREE - 1)))))) ∧
      (fullLeaf5.take (MIN_DEGREE - 1)).length = MIN_DEGREE - 1 ∧
      (fullLeaf5.drop (MIN_DEGREE - 1)).length = MIN_DEGREE ∧
      MIN_DEGREE - 1 < 2 * MIN_DEGREE - 1 ∧ MIN_DEGREE < 2 * MIN_DEGREE - 1 :=
  c5_split_shape [] [.leaf fullLeaf5] 0 fullLeaf5 rfl rfl (Nat.le_refl 0)

/-- C6: after every successfully completed insert sequence, every node
holds at most `2 * MIN_DEGREE - 1` keys and every non-root node holds at
least `MIN_DEGREE - 1` keys. -/
theorem c6_capacity_invariant (ops : List (Int × String)) (t : BPlusTree)
    (h : insertAll ops = some t) :
    allNodesCapped t.root ∧ properDescMin t.root := by
  have hinv := (reach_good h).1
  obtain ⟨root, ht⟩ := t
  cases root with
  | leaf es => exact ⟨hinv.2, trivial⟩
  | internal ks cs =>
      obtain ⟨-, hlen5, -, hfen⟩ := hinv
      obtain ⟨h1, h2⟩ := fenced_capped hfen
      exact ⟨⟨hlen5, h1⟩, h2⟩

/-- Witness for the capacity claim at a concrete reachable tree. -/
theorem c6_capacity_witness :
    allNodesCapped (BPlusTree.mk (.leaf [⟨1, "a"⟩]) 1).root ∧
      properDescMin (BPlusTree.mk (.leaf [⟨1, "a"⟩]) 1).root :=
  c6_capacity_invariant [(1, "a")] ⟨.leaf [⟨1, "a"⟩], 1⟩ rfl

/-- C7 (amended): after every successfully completed insert sequence,
`all_keys` is weakly ascending and contains exactly the inserted keys. -/
theorem c7_all_keys_sorted_and_complete (ops : List (Int × String)) (t : BPlusTree)
    (h : insertAll ops = some t) :
    t.all_keys.Pairwise (· ≤ ·) ∧ ∀ j : Int, (j ∈ t.all_keys ↔ j ∈ ops.map Prod.fst) := by
  obtain ⟨hinv, hprov, hkeys⟩ := reach_good h
  rw [all_keys_eq hinv]
  refine ⟨inorder_keys_sorted hinv, ?_⟩
  intro j
  constructor
  · intro hj
    obtain ⟨e, he, rfl⟩ := List.mem_map.mp hj
    exact List.mem_map.mpr ⟨(e.key, e.value), hprov e he, rfl⟩
  · intro hj
    obtain ⟨p, hp, rfl⟩ := List.mem_map.mp hj
    exact hkeys p hp

/-- Witness for the amended enumeration claim at a concrete tree. -/
theorem c7_all_keys_witness :
    (BPlusTree.mk (.leaf [⟨1, "a"⟩]) 1).all_keys.Pairwise (· ≤ ·) ∧
      ((1 : Int) ∈ (BPlusTree.mk (.leaf [⟨1, "a"⟩]) 1).all_keys ↔
        (1 : Int) ∈ [((1 : Int), "a")].map Prod.fst) :=
  ⟨(c7_all_keys_sorted_and_complete [(1, "a")] ⟨.leaf [⟨1, "a"⟩], 1⟩ rfl).1,
   (c7_all_keys_sorted_and_complete [(1, "a")] ⟨.leaf [⟨1, "a"⟩], 1⟩ rfl).2 1⟩

/-- C9: every reachable tree satisfies the arity invariant: each
internal node has one child more than it has separator keys, and its
separators are strictly ascending.  The read-only operations (`search`,
`range_query`, `all_keys`) take the tree by reference and cannot change
it, so the invariant is preserved by every operation. -/
theorem c9_arity_invariant (ops : List (Int × String)) (t : BPlusTree)
    (h : insertAll ops = some t) : arityOK t.root := by
  have hinv := (reach_good h).1
  obtain ⟨root, ht⟩ := t
  cases root with
  | leaf es => trivial
  | internal ks cs =>
      obtain ⟨-, -, hpw, hfen⟩ := hinv
      exact ⟨fenced_length hfen, hpw, fenced_arity hfen⟩

/-- Witness for the arity claim at a concrete reachable tree. -/
theorem c9_arity_witness : arityOK (BPlusTree.mk (.leaf [⟨1, "a"⟩]) 1).root :=
  c9_arity_invariant [(1, "a")] ⟨.leaf [⟨1, "a"⟩], 1⟩ rfl

/-- C10 (amended): when the root is an internal node that is not full
and the routed child is an internal node that is not full, the insert
returns successfully with the tree entirely unchanged — the key/value
pair is silently discarded. -/
theorem c10_silent_discard (t : BPlusTree) (ks ks2 : List Int) (cs cs2 : List Node)
    (key : Int) (value : String)
    (hroot : t.root = .internal ks cs) (hnf : t.root.is_full = false)
    (hget : cs.get? (routeIdx key ks) = some (.internal ks2 cs2))
    (hcf : (Node.internal ks2 cs2).is_full = false) :
    t.insert key value = some t := by
  have hg : growRoot t = some t := by simp [growRoot, hnf]
  simp only [BPlusTree.insert, hg, hroot]
  simp only [insert_non_full, hget, hcf, Bool.false_eq_true, if_false, insert_into_child,
    Option.map_some']
  rw [← hroot]

/-- Witness for the amended frame-effect claim on a concrete tree with a
non-full internal root and a non-full internal routed child. -/
theorem c10_silent_discard_witness : witC10.insert 3 "x" = some witC10 :=
  c10_silent_discard witC10 [10] [5]
    [.internal [5] [.leaf [⟨1, "a"⟩, ⟨2, "b"⟩], .leaf [⟨5, "c"⟩, ⟨6, "d"⟩]],
     .leaf [⟨10, "j"⟩, ⟨15, "k"⟩]]
    [.leaf [⟨1, "a"⟩, ⟨2, "b"⟩], .leaf [⟨5, "c"⟩, ⟨6, "d"⟩]]
    3 "x" rfl rfl rfl rfl
